import Mathlib

set_option synthInstance.maxSize 512

/-!
# A verification of the Graph engine of `grafos.py`

This file gives a shallow embedding, in Lean 4, of the `Graph` class of the
repository's single source file `grafos.py`, together with proofs and
refutations of the frozen specification claims about it.

Modelling conventions:

* Python dictionaries (`adjacency_list`, `edge_weights`, and the local
  `distances` and `predecessors` dictionaries of `dijkstra`) are modelled as
  insertion-ordered association lists.  Assignment to a present key replaces
  the value in place, assignment to an absent key appends at the end, and
  lookup reads the first occurrence of a key - exactly the observable
  behaviour of a Python `dict`.
* Vertex identifiers are an arbitrary type with decidable equality (the GUI
  uses strings); the concrete examples use `String`.  Edge weights are a type
  parameter `W`: the graph structure itself never computes with weights.
  Dijkstra's algorithm is embedded for `W = ℕ` - the specification scopes the
  system to non-negative weights ("no support for negative edge weights",
  spec section 1; "the reference behavior assumes weights ≥ 1", section 3),
  and the claims about Dijkstra hypothesise non-negative weights.
* Distance tables map vertices to `Option ℕ`: `some c` is a finite distance
  `c` and `none` is the `float('infinity')` sentinel.  The comparison
  `distance < distances[neighbor]` (in which the right-hand side may be the
  infinite sentinel, which every int is below) is `ltDist`.
* A Python `KeyError` (raised by a bare `d[k]` lookup on an absent key)
  is modelled by the operation returning `none`.
* The `heapq` min-priority queue is modelled as a plain list from which
  `heapMin` extracts the minimum under the lexicographic order on
  `(distance, vertex)` pairs - the order `heapq` uses on tuples.
* Files are modelled as their list of lines.
-/

section AssocList

variable {K A B : Type} [DecidableEq K]

/-- First-occurrence lookup in an association list (Python `d.get(k)` / `d[k]`). -/
def lookupA : List (K × A) → K → Option A
  | [], _ => none
  | (k', a) :: xs, k => if k' = k then some a else lookupA xs k

/-- Python `d[k] = a`: replace the value at the first occurrence of `k`,
or append a new binding at the end when `k` is absent. -/
def updA : List (K × A) → K → A → List (K × A)
  | [], k, a => [(k, a)]
  | (k', a') :: xs, k, a => if k' = k then (k, a) :: xs else (k', a') :: updA xs k a

/-- Apply `f` to the value stored at the first occurrence of `k`
(no change when `k` is absent).  Models `d[k].append(x)` on a present key. -/
def modifyA : List (K × A) → K → (A → A) → List (K × A)
  | [], _, _ => []
  | (k', a') :: xs, k, f => if k' = k then (k', f a') :: xs else (k', a') :: modifyA xs k f

@[simp] theorem lookupA_nil (k : K) : lookupA ([] : List (K × A)) k = none := rfl

theorem lookupA_cons (k' : K) (a : A) (xs : List (K × A)) (k : K) :
    lookupA ((k', a) :: xs) k = if k' = k then some a else lookupA xs k := rfl

@[simp] theorem lookupA_updA_self (l : List (K × A)) (k : K) (a : A) :
    lookupA (updA l k a) k = some a := by
  induction l with
  | nil => simp [updA, lookupA]
  | cons p xs ih =>
    obtain ⟨k', a'⟩ := p
    by_cases h : k' = k <;> simp [updA, lookupA, h, ih]

theorem lookupA_updA_ne (l : List (K × A)) {k k' : K} (h : k' ≠ k) (a : A) :
    lookupA (updA l k a) k' = lookupA l k' := by
  have hk : ¬(k = k') := fun hh => h hh.symm
  induction l with
  | nil => simp [updA, lookupA, hk]
  | cons p xs ih =>
    obtain ⟨k₀, a₀⟩ := p
    by_cases h₀ : k₀ = k
    · subst h₀
      simp [updA, lookupA, hk]
    · simp [updA, lookupA, h₀, ih]

theorem keys_updA_of_mem (l : List (K × A)) (k : K) (a : A)
    (h : k ∈ l.map Prod.fst) :
    (updA l k a).map Prod.fst = l.map Prod.fst := by
  induction l with
  | nil => simp at h
  | cons p xs ih =>
    obtain ⟨k₀, a₀⟩ := p
    by_cases h₀ : k₀ = k
    · simp [updA, h₀]
    · have hx : k ∈ xs.map Prod.fst := by
        rcases List.mem_cons.mp h with h | h
        · exact absurd h.symm h₀
        · exact h
      simp [updA, h₀, ih hx]

theorem lookupA_isSome_iff_mem (l : List (K × A)) (k : K) :
    (lookupA l k).isSome ↔ k ∈ l.map Prod.fst := by
  induction l with
  | nil => simp [lookupA]
  | cons p xs ih =>
    obtain ⟨k₀, a₀⟩ := p
    by_cases h₀ : k₀ = k
    · subst h₀
      simp [lookupA]
    · have hne : ¬(k = k₀) := fun hh => h₀ hh.symm
      simp [lookupA, h₀, ih, hne]

theorem lookupA_eq_none_iff_not_mem (l : List (K × A)) (k : K) :
    lookupA l k = none ↔ k ∉ l.map Prod.fst := by
  rw [← lookupA_isSome_iff_mem]
  cases h : lookupA l k <;> simp [h]

theorem mem_of_lookupA_eq_some {l : List (K × A)} {k : K} {a : A}
    (h : lookupA l k = some a) : (k, a) ∈ l := by
  induction l with
  | nil => simp [lookupA] at h
  | cons p xs ih =>
    obtain ⟨k₀, a₀⟩ := p
    by_cases h₀ : k₀ = k
    · subst h₀
      simp [lookupA] at h
      simp [h]
    · simp [lookupA, h₀] at h
      exact List.mem_cons_of_mem _ (ih h)

theorem lookupA_map_const (l : List (K × A)) (f : A → B) (k : K) :
    lookupA (l.map (fun p => (p.1, f p.2))) k = (lookupA l k).map f := by
  induction l with
  | nil => simp [lookupA]
  | cons p xs ih =>
    obtain ⟨k₀, a₀⟩ := p
    by_cases h₀ : k₀ = k <;> simp [lookupA, h₀, ih]

omit [DecidableEq K] in
theorem keys_map_const (l : List (K × A)) (f : A → B) :
    (l.map (fun p => (p.1, f p.2))).map Prod.fst = l.map Prod.fst := by
  induction l with
  | nil => rfl
  | cons p xs ih => simp [ih]

theorem keys_modifyA (l : List (K × A)) (k : K) (f : A → A) :
    (modifyA l k f).map Prod.fst = l.map Prod.fst := by
  induction l with
  | nil => rfl
  | cons p xs ih =>
    obtain ⟨k₀, a₀⟩ := p
    by_cases h₀ : k₀ = k <;> simp [modifyA, h₀, ih]

theorem lookupA_modifyA_self (l : List (K × A)) (k : K) (f : A → A) :
    lookupA (modifyA l k f) k = (lookupA l k).map f := by
  induction l with
  | nil => rfl
  | cons p xs ih =>
    obtain ⟨k₀, a₀⟩ := p
    by_cases h₀ : k₀ = k <;> simp [modifyA, lookupA, h₀, ih]

theorem lookupA_modifyA_ne (l : List (K × A)) {k k' : K} (h : k' ≠ k) (f : A → A) :
    lookupA (modifyA l k f) k' = lookupA l k' := by
  have hk : ¬(k = k') := fun hh => h hh.symm
  induction l with
  | nil => rfl
  | cons p xs ih =>
    obtain ⟨k₀, a₀⟩ := p
    by_cases h₀ : k₀ = k
    · subst h₀
      simp [modifyA, lookupA, hk]
    · simp [modifyA, lookupA, h₀, ih]

end AssocList


section AssocListConst

variable {K A B : Type} [DecidableEq K]

theorem lookupA_map_val (l : List (K × A)) (c : B) (k : K) :
    lookupA (l.map (fun p => (p.1, c))) k = (lookupA l k).map (fun _ => c) := by
  induction l with
  | nil => simp [lookupA]
  | cons p xs ih =>
    obtain ⟨k₀, a₀⟩ := p
    by_cases h₀ : k₀ = k <;> simp [lookupA, h₀, ih]

omit [DecidableEq K] in
theorem keys_map_val (l : List (K × A)) (c : B) :
    (l.map (fun p => (p.1, c))).map Prod.fst = l.map Prod.fst := by
  induction l with
  | nil => rfl
  | cons p xs ih => simp [ih]

end AssocListConst

section GraphDef

/-- The data model of the Python `Graph` class (`grafos.py`, lines 6-10):
a directedness flag, an adjacency dictionary mapping each vertex to its
(ordered, possibly repeating) neighbour list, and a weight dictionary keyed
by ordered `(source, target)` pairs. -/
structure Graph (V W : Type) where
  directed : Bool
  adjacency_list : List (V × List V)
  edge_weights : List ((V × V) × W)

variable {V W : Type} [DecidableEq V]

/-- `Graph(directed=...)`: a freshly constructed, empty graph. -/
def Graph.empty (d : Bool) : Graph V W := ⟨d, [], []⟩

/-- The list of vertices of the graph, i.e. the keys of `adjacency_list`. -/
def Graph.vertices (g : Graph V W) : List V := g.adjacency_list.map Prod.fst

/-- `add_vertex` (lines 12-14): create an empty neighbour list for a new
vertex; no-op when the vertex already exists. -/
def Graph.add_vertex (g : Graph V W) (v : V) : Graph V W :=
  if v ∈ g.vertices then g
  else { g with adjacency_list := g.adjacency_list ++ [(v, [])] }

/-- One direction of an edge insertion: `adjacency_list[s].append(t)` and
`edge_weights[(s, t)] = w` (lines 22-23 and, for the reverse direction of an
undirected graph, lines 26-27). -/
def Graph.add_dir_edge (g : Graph V W) (s t : V) (w : W) : Graph V W :=
  { g with
    adjacency_list := modifyA g.adjacency_list s (fun l => l ++ [t]),
    edge_weights := updA g.edge_weights (s, t) w }

/-- `add_edge` (lines 16-27): auto-create both endpoints, append `t` to
`s`'s neighbour list and record the weight for `(s, t)`; when the graph is
undirected, also append `s` to `t`'s list and record the weight for `(t, s)`. -/
def Graph.add_edge (g : Graph V W) (s t : V) (w : W) : Graph V W :=
  if (((g.add_vertex s).add_vertex t).add_dir_edge s t w).directed then
    ((g.add_vertex s).add_vertex t).add_dir_edge s t w
  else
    (((g.add_vertex s).add_vertex t).add_dir_edge s t w).add_dir_edge t s w

/-- `is_eulerian` (lines 29-35): count the vertices with an odd neighbour-list
length; `(True, False)` when there are none, `(False, True)` when there are
exactly two, `(False, False)` otherwise. -/
def Graph.is_eulerian (g : Graph V W) : Bool × Bool :=
  let odd_degree_vertices := g.adjacency_list.countP (fun p => p.2.length % 2 != 0)
  if odd_degree_vertices = 0 then (true, false)
  else if odd_degree_vertices = 2 then (false, true)
  else (false, false)

/-- `get_order` (lines 51-52): the number of keys of `adjacency_list`. -/
def Graph.get_order (g : Graph V W) : ℕ := g.adjacency_list.length

/-- `get_size` (lines 54-55): the sum of the neighbour-list lengths, floor
divided by 2 for an undirected graph and by 1 for a directed one. -/
def Graph.get_size (g : Graph V W) : ℕ :=
  (g.adjacency_list.map (fun p => p.2.length)).sum / (if g.directed then 1 else 2)

/-- `get_adjacent_vertices` (lines 57-58): the neighbour list of `v`, empty
when `v` is unknown (`dict.get` with default `[]`). -/
def Graph.get_adjacent_vertices (g : Graph V W) (v : V) : List V :=
  (lookupA g.adjacency_list v).getD []

/-- The result shape of `get_degree`: a plain count for an undirected graph,
an in/out pair (the Python `{'in_degree': ..., 'out_degree': ...}` dict) for a
directed one. -/
inductive DegreeResult : Type
  | undirDeg (deg : ℕ)
  | dirDeg (inDeg outDeg : ℕ)
deriving DecidableEq

/-- `get_degree` (lines 60-66). -/
def Graph.get_degree (g : Graph V W) (v : V) : DegreeResult :=
  if g.directed then
    DegreeResult.dirDeg
      (g.adjacency_list.countP (fun p => decide (v ∈ p.2)))
      ((lookupA g.adjacency_list v).getD []).length
  else
    DegreeResult.undirDeg ((lookupA g.adjacency_list v).getD []).length

/-- `are_adjacent` (lines 68-69): whether `v2` appears in `v1`'s neighbour
list (empty when `v1` is unknown). -/
def Graph.are_adjacent (g : Graph V W) (v1 v2 : V) : Bool :=
  decide (v2 ∈ g.get_adjacent_vertices v1)

end GraphDef

section LoadFile

/-- The two failure modes of `load_from_file` (lines 37-42): `indexError`
models the `IndexError` raised by `parts[1]`/`parts[2]` on a line with fewer
than three whitespace-separated tokens, `valueError` models the `ValueError`
raised by `int(parts[2])` on a non-integer third token. -/
inductive LoadError : Type
  | indexError
  | valueError
deriving DecidableEq

/-- Whitespace tokenizer on character lists: `splitWS cs cur` splits `cs`
into maximal runs of non-whitespace characters, `cur` holding the reversed
current token. -/
def splitWS : List Char → List Char → List (List Char)
  | [], cur => if cur = [] then [] else [cur.reverse]
  | c :: cs, cur =>
    if c.isWhitespace then
      if cur = [] then splitWS cs [] else cur.reverse :: splitWS cs []
    else splitWS cs (c :: cur)

/-- `line.strip().split()`: the whitespace-separated tokens of the line
(splitting on whitespace runs drops leading/trailing whitespace, subsuming
the `strip`). -/
def lineTokens (line : String) : List String :=
  (splitWS line.toList []).map (fun cs => String.mk cs)

/-- The value of a non-empty all-digit character list, `none` otherwise. -/
def digitsVal (cs : List Char) : Option ℕ :=
  if cs ≠ [] ∧ cs.all Char.isDigit then
    some (cs.foldl (fun a c => 10 * a + (c.toNat - '0'.toNat)) 0)
  else none

/-- A model of Python `int(s)` on the strings the loader can meet: an
optional sign followed by at least one decimal digit (exotic accepted forms
such as underscore separators or non-ASCII digits are not modelled). -/
def parseInt (s : String) : Option ℤ :=
  match s.toList with
  | '-' :: rest => (digitsVal rest).map (fun n => -(n : ℤ))
  | '+' :: rest => (digitsVal rest).map (fun n => (n : ℤ))
  | cs => (digitsVal cs).map (fun n => (n : ℤ))

/-- `load_from_file` (lines 37-42), with the file given as its list of lines.
Each line is processed by taking tokens `parts[0]`, `parts[1]` and
`int(parts[2])` - by *indexing*, so tokens beyond the third are ignored - and
calling `add_edge`.  The returned pair is the graph state when the loop ends
(normally or by an exception) together with the exception, if any: the
exception aborts the rest of the file but the edges of the prior lines remain
applied. -/
def Graph.load_from_file (g : Graph String ℤ) : List String → Graph String ℤ × Option LoadError
  | [] => (g, none)
  | line :: rest =>
    match lineTokens line with
    | s :: t :: wstr :: _ =>
      match parseInt wstr with
      | some w => (g.add_edge s t w).load_from_file rest
      | none => (g, some LoadError.valueError)
    | _ => (g, some LoadError.indexError)

end LoadFile


section DijkstraDef

variable {V : Type}

/-- The smaller of two heap entries under the lexicographic order on
`(distance, vertex)` pairs - the order Python's `heapq` uses on tuples
(preferring the first argument on ties, which only matters for identical
entries). -/
def minPair [LinearOrder V] (a b : ℕ × V) : ℕ × V :=
  if b.1 < a.1 then b else if b.1 = a.1 ∧ b.2 < a.2 then b else a

/-- `heapq.heappop`: the minimum entry of the queue (`none` on an empty
queue, which is how the `while priority_queue:` loop terminates). -/
def heapMin [LinearOrder V] : List (ℕ × V) → Option (ℕ × V)
  | [] => none
  | x :: xs => some (xs.foldl minPair x)

theorem minPair_eq_or [LinearOrder V] (a b : ℕ × V) :
    minPair a b = a ∨ minPair a b = b := by
  unfold minPair
  split_ifs <;> simp

theorem foldl_minPair_mem [LinearOrder V] (xs : List (ℕ × V)) :
    ∀ a, xs.foldl minPair a = a ∨ xs.foldl minPair a ∈ xs := by
  induction xs with
  | nil => intro a; simp
  | cons x xs ih =>
    intro a
    rcases ih (minPair a x) with h | h
    · rcases minPair_eq_or a x with h' | h'
      · rw [List.foldl_cons, h, h']
        exact Or.inl rfl
      · rw [List.foldl_cons, h, h']
        exact Or.inr (List.mem_cons_self _ _)
    · exact Or.inr (List.mem_cons_of_mem _ h)

theorem heapMin_mem [LinearOrder V] {l : List (ℕ × V)} {x : ℕ × V}
    (h : heapMin l = some x) : x ∈ l := by
  cases l with
  | nil => simp [heapMin] at h
  | cons y ys =>
    simp only [heapMin, Option.some_inj] at h
    rcases foldl_minPair_mem ys y with h' | h'
    · rw [← h, h']
      exact List.mem_cons_self _ _
    · rw [← h]
      exact List.mem_cons_of_mem _ h'

theorem heapMin_eq_none_iff [LinearOrder V] (l : List (ℕ × V)) :
    heapMin l = none ↔ l = [] := by
  cases l <;> simp [heapMin]

/-- `edge_weights.get((u, v), 1)` (line 81): the stored weight, defaulting
to `1` when the pair has no weight entry. -/
def edgeWeight [DecidableEq V] (wts : List ((V × V) × ℕ)) (k : V × V) : ℕ :=
  (lookupA wts k).getD 1

/-- The Python comparison `distance < distances[neighbor]` (line 84), where
the right-hand side may be the infinite sentinel: every int is strictly
below `float('infinity')`. -/
def ltDist (c : ℕ) : Option ℕ → Bool
  | none => true
  | some m => decide (c < m)

/-- Number of entries of a distance table currently at the infinite sentinel
(termination measure component). -/
def countInf (dist : List (V × Option ℕ)) : ℕ :=
  dist.countP (fun p => p.2.isNone)

/-- Sum of the finite entries of a distance table (termination measure
component). -/
def sumFin (dist : List (V × Option ℕ)) : ℕ :=
  (dist.map (fun p => p.2.getD 0)).sum

theorem countInf_updA [DecidableEq V] {dist : List (V × Option ℕ)} {v : V}
    {dv : Option ℕ} (h : lookupA dist v = some dv) (a : Option ℕ) :
    countInf (updA dist v a) + (if dv.isNone then 1 else 0) =
      countInf dist + (if a.isNone then 1 else 0) := by
  induction dist with
  | nil => simp [lookupA] at h
  | cons p xs ih =>
    obtain ⟨k₀, a₀⟩ := p
    by_cases h₀ : k₀ = v
    · subst h₀
      have hdv : a₀ = dv := by simpa [lookupA] using h
      subst hdv
      have hupd : updA ((k₀, a₀) :: xs) k₀ a = (k₀, a) :: xs := by simp [updA]
      rw [hupd]
      simp only [countInf, List.countP_cons]
      cases a <;> cases a₀ <;> simp
    · simp only [lookupA, if_neg h₀] at h
      simp only [updA, if_neg h₀, countInf, List.countP_cons]
      have := ih h
      simp only [countInf] at this
      omega

theorem sumFin_updA [DecidableEq V] {dist : List (V × Option ℕ)} {v : V}
    {dv : Option ℕ} (h : lookupA dist v = some dv) (a : Option ℕ) :
    sumFin (updA dist v a) + dv.getD 0 = sumFin dist + a.getD 0 := by
  induction dist with
  | nil => simp [lookupA] at h
  | cons p xs ih =>
    obtain ⟨k₀, a₀⟩ := p
    by_cases h₀ : k₀ = v
    · subst h₀
      have hdv : a₀ = dv := by simpa [lookupA] using h
      subst hdv
      have hupd : updA ((k₀, a₀) :: xs) k₀ a = (k₀, a) :: xs := by simp [updA]
      rw [hupd]
      simp only [sumFin, List.map_cons, List.sum_cons]
      omega
    · simp only [lookupA, if_neg h₀] at h
      simp only [updA, if_neg h₀, sumFin, List.map_cons, List.sum_cons]
      have := ih h
      simp only [sumFin] at this
      omega

/-- The inner `for neighbor in self.adjacency_list[current_vertex]:` loop of
`dijkstra` (lines 80-87): for each neighbour in order, compute
`distance = current_distance + weight` and, when it improves on the stored
distance, update the distance, set the predecessor, and push the new entry.
A `none` result models the `KeyError` of `distances[neighbor]` when the
neighbour is not a key of the distance table. -/
def relax [DecidableEq V] (wts : List ((V × V) × ℕ)) (d : ℕ) (u : V) :
    List V → List (ℕ × V) → List (V × Option ℕ) → List (V × Option V) →
    Option (List (ℕ × V) × List (V × Option ℕ) × List (V × Option V))
  | [], pq, dist, pred => some (pq, dist, pred)
  | v :: rest, pq, dist, pred =>
    match lookupA dist v with
    | none => none
    | some dv =>
      if ltDist (d + edgeWeight wts (u, v)) dv then
        relax wts d u rest ((d + edgeWeight wts (u, v), v) :: pq)
          (updA dist v (some (d + edgeWeight wts (u, v)))) (updA pred v (some u))
      else
        relax wts d u rest pq dist pred

theorem relax_measure [DecidableEq V] {wts : List ((V × V) × ℕ)} {d : ℕ} {u : V} :
    ∀ {nbrs : List V} {pq : List (ℕ × V)} {dist : List (V × Option ℕ)}
      {pred : List (V × Option V)} {pq₂ dist₂ pred₂},
      relax wts d u nbrs pq dist pred = some (pq₂, dist₂, pred₂) →
      countInf dist₂ < countInf dist ∨
        (countInf dist₂ = countInf dist ∧ sumFin dist₂ < sumFin dist) ∨
        (dist₂ = dist ∧ pq₂ = pq) := by
  intro nbrs
  induction nbrs with
  | nil =>
    intro pq dist pred pq₂ dist₂ pred₂ h
    simp only [relax, Option.some_inj, Prod.mk.injEq] at h
    exact Or.inr (Or.inr ⟨h.2.1.symm, h.1.symm⟩)
  | cons v rest ih =>
    intro pq dist pred pq₂ dist₂ pred₂ h
    simp only [relax] at h
    split at h
    · exact Option.noConfusion h
    · rename_i dv hv
      by_cases hlt : ltDist (d + edgeWeight wts (u, v)) dv = true
      · rw [if_pos hlt] at h
        have hstep :
            countInf (updA dist v (some (d + edgeWeight wts (u, v)))) < countInf dist ∨
              (countInf (updA dist v (some (d + edgeWeight wts (u, v)))) = countInf dist ∧
                sumFin (updA dist v (some (d + edgeWeight wts (u, v)))) < sumFin dist) := by
          have hct := countInf_updA hv (some (d + edgeWeight wts (u, v)))
          have hsf := sumFin_updA hv (some (d + edgeWeight wts (u, v)))
          cases dv with
          | none =>
            left
            simp at hct
            omega
          | some m =>
            right
            have hcm : d + edgeWeight wts (u, v) < m := by
              simpa [ltDist] using hlt
            simp at hct hsf
            omega
        rcases ih h with h1 | ⟨h1, h2⟩ | ⟨h1, h2⟩
        · rcases hstep with hs | ⟨hs1, _⟩
          · exact Or.inl (h1.trans hs)
          · exact Or.inl (hs1 ▸ h1)
        · rcases hstep with hs | ⟨hs1, hs2⟩
          · exact Or.inl (h1.trans_lt hs)
          · exact Or.inr (Or.inl ⟨h1.trans hs1, h2.trans hs2⟩)
        · subst h1
          rcases hstep with hs | ⟨hs1, hs2⟩
          · exact Or.inl hs
          · exact Or.inr (Or.inl ⟨hs1, hs2⟩)
      · rw [if_neg hlt] at h
        exact ih h

set_option linter.unusedVariables false in
/-- The `while priority_queue:` loop of `dijkstra` (lines 77-87): pop the
minimum entry and relax its neighbours.  `none` models the `KeyError` of
`self.adjacency_list[current_vertex]` (or of an inner lookup) on a
malformed or unknown vertex. -/
def dijkstraLoop [DecidableEq V] [LinearOrder V] (adj : List (V × List V)) (wts : List ((V × V) × ℕ))
    (pq : List (ℕ × V)) (dist : List (V × Option ℕ)) (pred : List (V × Option V)) :
    Option (List (V × Option ℕ) × List (V × Option V)) :=
  match hm : heapMin pq with
  | none => some (dist, pred)
  | some (d, u) =>
    match lookupA adj u with
    | none => none
    | some nbrs =>
      match hr : relax wts d u nbrs (pq.erase (d, u)) dist pred with
      | none => none
      | some (pq₂, dist₂, pred₂) => dijkstraLoop adj wts pq₂ dist₂ pred₂
termination_by (countInf dist, sumFin dist, pq.length)
decreasing_by
  have hmem : (d, u) ∈ pq := heapMin_mem hm
  have hlen : (pq.erase (d, u)).length < pq.length := by
    rw [List.length_erase_of_mem hmem]
    exact Nat.sub_lt (List.length_pos.mpr (List.ne_nil_of_mem hmem)) Nat.one_pos
  rcases relax_measure hr with h1 | ⟨h1, h2⟩ | ⟨h1, h2⟩
  · exact Prod.Lex.left _ _ h1
  · rw [h1]
    exact Prod.Lex.right _ (Prod.Lex.left _ _ h2)
  · rw [h1, h2]
    exact Prod.Lex.right _ (Prod.Lex.right _ hlen)

/-- `dijkstra` (lines 71-89): initialise every known vertex to the infinite
sentinel, set `distances[start_vertex] = 0` (a plain dict assignment: it
*adds* the key when the start vertex is unknown), seed the queue with
`(0, start_vertex)`, initialise all predecessors to `None`, and run the
loop.  The distances and predecessors are fresh structures, separate from
the graph itself. -/
def Graph.dijkstra [DecidableEq V] [LinearOrder V] (g : Graph V ℕ) (start : V) :
    Option (List (V × Option ℕ) × List (V × Option V)) :=
  dijkstraLoop g.adjacency_list g.edge_weights [(0, start)]
    (updA (g.adjacency_list.map (fun p => (p.1, (none : Option ℕ)))) start (some 0))
    (g.adjacency_list.map (fun p => (p.1, (none : Option V))))

/-- The result of `shortest_path`: either the `("No path exists", [])` pair
(an empty path together with a string failure indicator in the cost slot),
or a numeric cost together with the reconstructed path list. -/
inductive SPResult (V : Type) : Type
  | noPath
  | found (cost : ℕ) (path : List V)
deriving DecidableEq

/-- The `while predecessors[current_vertex] is not None:` walk of
`shortest_path` (lines 98-100): prepend the current vertex and step to its
predecessor, returning the final current vertex and the accumulated path.
A bare `predecessors[...]` lookup failure is `none` (KeyError); the fuel
only guards Lean totality - a predecessor table produced by `dijkstra` is
acyclic, so `pred.length + 1` steps always suffice on such tables. -/
def walkBack [DecidableEq V] (pred : List (V × Option V)) :
    ℕ → V → List V → Option (V × List V)
  | 0, _, _ => none
  | Nat.succ fuel, cur, path =>
    match lookupA pred cur with
    | none => none
    | some none => some (cur, path)
    | some (some p) => walkBack pred fuel p (cur :: path)

/-- `shortest_path` (lines 91-104): run `dijkstra`, fail (`KeyError`) when
the end vertex has no distance entry, return the no-path result when its
distance equals the infinite sentinel, otherwise walk the predecessors
backward and - only when that walk produced a non-empty path - prepend the
final vertex reached. -/
def Graph.shortest_path [DecidableEq V] [LinearOrder V] (g : Graph V ℕ) (start e : V) :
    Option (SPResult V) :=
  match g.dijkstra start with
  | none => none
  | some (dist, pred) =>
    match lookupA dist e with
    | none => none
    | some de =>
      match de with
      | none => some SPResult.noPath
      | some cost =>
        match walkBack pred (pred.length + 1) e [] with
        | none => none
        | some (cur, path) =>
          some (SPResult.found cost (if path.isEmpty then path else cur :: path))

end DijkstraDef

section DijkstraStep

variable {V : Type}

/-- One iteration of the Dijkstra loop, for computing with concrete graphs:
pop the minimum, relax its neighbours, continue with the new state. -/
theorem dijkstraLoop_step [DecidableEq V] [LinearOrder V] {adj : List (V × List V)}
    {wts : List ((V × V) × ℕ)} {pq : List (ℕ × V)} {dist : List (V × Option ℕ)}
    {pred : List (V × Option V)} {d : ℕ} {u : V} {n : List V}
    {pq₂ : List (ℕ × V)} {dist₂ : List (V × Option ℕ)} {pred₂ : List (V × Option V)}
    (hm : heapMin pq = some (d, u)) (ha : lookupA adj u = some n)
    (hr : relax wts d u n (pq.erase (d, u)) dist pred = some (pq₂, dist₂, pred₂)) :
    dijkstraLoop adj wts pq dist pred = dijkstraLoop adj wts pq₂ dist₂ pred₂ := by
  rw [dijkstraLoop.eq_def]
  split
  · rename_i h
    rw [h] at hm
    exact Option.noConfusion hm
  · rename_i d' u' h
    rw [hm] at h
    obtain ⟨rfl, rfl⟩ : d = d' ∧ u = u' := by
      have := Option.some_inj.mp h
      exact ⟨congrArg Prod.fst this, congrArg Prod.snd this⟩
    split
    · rename_i h2
      rw [ha] at h2
      exact Option.noConfusion h2
    · rename_i nbrs' h2
      obtain rfl : n = nbrs' := by
        rw [ha] at h2
        exact Option.some_inj.mp h2
      split
      · rename_i h3
        rw [hr] at h3
        exact Option.noConfusion h3
      · rename_i pq₃ dist₃ pred₃ h3
        rw [hr] at h3
        have h4 := Option.some_inj.mp h3
        rw [show pq₃ = pq₂ from (congrArg Prod.fst h4).symm,
          show dist₃ = dist₂ from (congrArg (fun x => x.2.1) h4).symm,
          show pred₃ = pred₂ from (congrArg (fun x => x.2.2) h4).symm]

/-- The loop on an empty queue returns the tables unchanged. -/
theorem dijkstraLoop_nil [DecidableEq V] [LinearOrder V] (adj : List (V × List V))
    (wts : List ((V × V) × ℕ)) (dist : List (V × Option ℕ)) (pred : List (V × Option V)) :
    dijkstraLoop adj wts [] dist pred = some (dist, pred) := by
  rw [dijkstraLoop.eq_def]
  split
  · rfl
  · rename_i d u h
    rw [(heapMin_eq_none_iff ([] : List (ℕ × V))).mpr rfl] at h
    exact Option.noConfusion h

/-- The loop fails (Python `KeyError` on `self.adjacency_list[current_vertex]`)
when the popped vertex has no adjacency entry. -/
theorem dijkstraLoop_key_err [DecidableEq V] [LinearOrder V] {adj : List (V × List V)}
    {wts : List ((V × V) × ℕ)} {pq : List (ℕ × V)} {dist : List (V × Option ℕ)}
    {pred : List (V × Option V)} {d : ℕ} {u : V}
    (hm : heapMin pq = some (d, u)) (ha : lookupA adj u = none) :
    dijkstraLoop adj wts pq dist pred = none := by
  rw [dijkstraLoop.eq_def]
  split
  · rename_i h
    rw [h] at hm
    exact Option.noConfusion hm
  · rename_i d' u' h
    rw [hm] at h
    obtain ⟨rfl, rfl⟩ : d = d' ∧ u = u' := by
      have := Option.some_inj.mp h
      exact ⟨congrArg Prod.fst this, congrArg Prod.snd this⟩
    rw [ha]

end DijkstraStep

section DijkstraSpec

variable {V W : Type} [DecidableEq V]

/-- A walk in the graph from `s` to its last vertex, traversing recorded
neighbour-list edges, weighted exactly as `dijkstra` weighs them (the stored
weight of each ordered edge, defaulting to `1` when the weight entry is
missing).  `WalkTo g s v c` holds when some such walk from `s` to `v` has
total weight `c`. -/
inductive WalkTo (g : Graph V ℕ) (s : V) : V → ℕ → Prop
  | nil : WalkTo g s s 0
  | cons {u v : V} {c : ℕ} : WalkTo g s u c → v ∈ g.get_adjacent_vertices u →
      WalkTo g s v (c + edgeWeight g.edge_weights (u, v))

/-- The specification of a Dijkstra distance entry: a finite entry is the
weight of some walk from `s` to `v` and is minimal among all such walks; the
infinite sentinel means no walk reaches `v` at all. -/
def IsMinDist (g : Graph V ℕ) (s v : V) : Option ℕ → Prop
  | some c => WalkTo g s v c ∧ ∀ c', WalkTo g s v c' → c ≤ c'
  | none => ∀ c, ¬ WalkTo g s v c

/-- The data-model invariant of spec section 3: every identifier appearing
as a neighbour also exists as an adjacency key (graphs built through
`add_vertex`/`add_edge` always satisfy it). -/
def Graph.WellFormed (g : Graph V W) : Prop :=
  ∀ p ∈ g.adjacency_list, ∀ v ∈ p.2, v ∈ g.vertices

instance (g : Graph V W) : Decidable g.WellFormed := by
  unfold Graph.WellFormed
  infer_instance

theorem wf_adj_mem {g : Graph V W} (hwf : g.WellFormed) {u v : V}
    (h : v ∈ g.get_adjacent_vertices u) : v ∈ g.vertices := by
  unfold Graph.get_adjacent_vertices at h
  cases hl : lookupA g.adjacency_list u with
  | none => rw [hl] at h; simp at h
  | some l =>
    rw [hl] at h
    exact hwf (u, l) (mem_of_lookupA_eq_some hl) v h

/-- The vertex `u`, with current finite distance `c`, is fully relaxed:
every neighbour's stored distance is at most `c` plus the edge weight. -/
def CleanAt (g : Graph V ℕ) (dist : List (V × Option ℕ)) (u : V) (c : ℕ) : Prop :=
  ∀ v ∈ g.get_adjacent_vertices u,
    ∃ dv ≤ c + edgeWeight g.edge_weights (u, v), lookupA dist v = some (some dv)

theorem cleanAt_mono {g : Graph V ℕ} {dist dist₂ : List (V × Option ℕ)} {u : V} {c : ℕ}
    (hpw : ∀ v cv, lookupA dist v = some (some cv) →
      ∃ cv' ≤ cv, lookupA dist₂ v = some (some cv'))
    (h : CleanAt g dist u c) : CleanAt g dist₂ u c := by
  intro v hv
  obtain ⟨dv, hdv, hl⟩ := h v hv
  obtain ⟨dv', hdv', hl'⟩ := hpw v dv hl
  exact ⟨dv', hdv'.trans hdv, hl'⟩

/-- The invariant carried through the inner relaxation loop (relative to the
popped entry `(d, u₀)`, whose queue membership has just been consumed). -/
structure RelaxInv (g : Graph V ℕ) (s u₀ : V) (d : ℕ) (pq : List (ℕ × V))
    (dist : List (V × Option ℕ)) (pred : List (V × Option V)) : Prop where
  keys : dist.map Prod.fst = g.vertices
  sound : ∀ v c, lookupA dist v = some (some c) → WalkTo g s v c
  pqSound : ∀ e x, (e, x) ∈ pq → WalkTo g s x e
  pqKeys : ∀ e x, (e, x) ∈ pq → x ∈ g.vertices
  pqLower : ∀ e x, (e, x) ∈ pq → ∃ dx ≤ e, lookupA dist x = some (some dx)
  cleanW : ∀ x c, x ≠ u₀ → lookupA dist x = some (some c) →
    ((c, x) ∈ pq ∨ CleanAt g dist x c)
  u0val : ∃ c₀ ≤ d, lookupA dist u₀ = some (some c₀)
  start0 : lookupA dist s = some (some 0)
  predStart : lookupA pred s = some none

/-- The invariant of the outer `while priority_queue:` loop. -/
structure LoopInv (g : Graph V ℕ) (s : V) (pq : List (ℕ × V))
    (dist : List (V × Option ℕ)) (pred : List (V × Option V)) : Prop where
  keys : dist.map Prod.fst = g.vertices
  sound : ∀ v c, lookupA dist v = some (some c) → WalkTo g s v c
  pqSound : ∀ e x, (e, x) ∈ pq → WalkTo g s x e
  pqKeys : ∀ e x, (e, x) ∈ pq → x ∈ g.vertices
  pqLower : ∀ e x, (e, x) ∈ pq → ∃ dx ≤ e, lookupA dist x = some (some dx)
  clean : ∀ x c, lookupA dist x = some (some c) → ((c, x) ∈ pq ∨ CleanAt g dist x c)
  start0 : lookupA dist s = some (some 0)
  predStart : lookupA pred s = some none

end DijkstraSpec

section RelaxInvProof

variable {V : Type} [DecidableEq V]

theorem ltDist_some_iff {c m : ℕ} : ltDist c (some m) = true ↔ c < m := by
  simp [ltDist]

theorem ltDist_none (c : ℕ) : ltDist c none = true := rfl

/-- Processing any suffix of the popped vertex's neighbour list preserves the
relaxation invariant; moreover the popped vertex's own entry is untouched,
every distance can only decrease, the queue only grows, and every processed
neighbour ends with a distance at most `d` plus its edge weight. -/
theorem relax_inv {g : Graph V ℕ} {s u₀ : V} {d : ℕ}
    (hwf : g.WellFormed) (hwalk : WalkTo g s u₀ d) :
    ∀ (rest : List V) (pq : List (ℕ × V)) (dist : List (V × Option ℕ))
      (pred : List (V × Option V)),
      (∀ v ∈ rest, v ∈ g.get_adjacent_vertices u₀) →
      RelaxInv g s u₀ d pq dist pred →
      ∃ pq₂ dist₂ pred₂,
        relax g.edge_weights d u₀ rest pq dist pred = some (pq₂, dist₂, pred₂) ∧
        RelaxInv g s u₀ d pq₂ dist₂ pred₂ ∧
        lookupA dist₂ u₀ = lookupA dist u₀ ∧
        (∀ v c, lookupA dist v = some (some c) →
          ∃ c' ≤ c, lookupA dist₂ v = some (some c')) ∧
        (∀ e x, (e, x) ∈ pq → (e, x) ∈ pq₂) ∧
        (∀ v ∈ rest, ∃ dv ≤ d + edgeWeight g.edge_weights (u₀, v),
          lookupA dist₂ v = some (some dv)) := by
  intro rest
  induction rest with
  | nil =>
    intro pq dist pred hrest hinv
    exact ⟨pq, dist, pred, rfl, hinv, rfl, fun v c h => ⟨c, le_refl c, h⟩,
      fun e x h => h, by simp⟩
  | cons v rest ih =>
    intro pq dist pred hrest hinv
    have hv_adj : v ∈ g.get_adjacent_vertices u₀ := hrest v (List.mem_cons_self _ _)
    have hv_mem : v ∈ g.vertices := wf_adj_mem hwf hv_adj
    have hv_keys : v ∈ dist.map Prod.fst := by rw [hinv.keys]; exact hv_mem
    obtain ⟨dv, hdv⟩ := Option.isSome_iff_exists.mp
      ((lookupA_isSome_iff_mem dist v).mpr hv_keys)
    by_cases hlt : ltDist (d + edgeWeight g.edge_weights (u₀, v)) dv = true
    · -- the improvement branch: update the distance and predecessor, push
      obtain ⟨c₀, hc₀le, hc₀⟩ := hinv.u0val
      have hvne_u0 : v ≠ u₀ := by
        intro h
        subst h
        rw [hdv] at hc₀
        have hdvc : dv = some c₀ := Option.some_inj.mp hc₀
        subst hdvc
        have := ltDist_some_iff.mp hlt
        omega
      have hvne_s : v ≠ s := by
        intro h
        subst h
        have h0 := hinv.start0
        rw [hdv] at h0
        have hdvc : dv = some 0 := Option.some_inj.mp h0
        subst hdvc
        have := ltDist_some_iff.mp hlt
        omega
      have hpw1 : ∀ y cy, lookupA dist y = some (some cy) →
          ∃ cy' ≤ cy, lookupA
            (updA dist v (some (d + edgeWeight g.edge_weights (u₀, v)))) y =
            some (some cy') := by
        intro y cy hy
        by_cases hyv : y = v
        · subst hyv
          rw [hdv] at hy
          have hdvc : dv = some cy := Option.some_inj.mp hy
          subst hdvc
          have hclt := ltDist_some_iff.mp hlt
          exact ⟨_, le_of_lt hclt, lookupA_updA_self _ _ _⟩
        · exact ⟨cy, le_refl _, by rw [lookupA_updA_ne dist hyv]; exact hy⟩
      have hinv2 : RelaxInv g s u₀ d
          ((d + edgeWeight g.edge_weights (u₀, v), v) :: pq)
          (updA dist v (some (d + edgeWeight g.edge_weights (u₀, v))))
          (updA pred v (some u₀)) := by
        refine ⟨?_, ?_, ?_, ?_, ?_, ?_, ?_, ?_, ?_⟩
        · rw [keys_updA_of_mem dist v _ hv_keys, hinv.keys]
        · intro x cx hx
          by_cases hxv : x = v
          · rw [hxv, lookupA_updA_self] at hx
            rw [hxv, ← Option.some_inj.mp (Option.some_inj.mp hx)]
            exact WalkTo.cons hwalk hv_adj
          · rw [lookupA_updA_ne dist hxv] at hx
            exact hinv.sound x cx hx
        · intro e x hex
          rcases List.mem_cons.mp hex with h | h
          · rw [Prod.mk.injEq] at h
            rw [h.2, h.1]
            exact WalkTo.cons hwalk hv_adj
          · exact hinv.pqSound e x h
        · intro e x hex
          rcases List.mem_cons.mp hex with h | h
          · rw [Prod.mk.injEq] at h
            rw [h.2]
            exact hv_mem
          · exact hinv.pqKeys e x h
        · intro e x hex
          rcases List.mem_cons.mp hex with h | h
          · rw [Prod.mk.injEq] at h
            rw [h.2, h.1]
            exact ⟨_, le_refl _, lookupA_updA_self _ _ _⟩
          · by_cases hxv : x = v
            · rw [hxv] at h
              obtain ⟨dx, hdxle, hdx⟩ := hinv.pqLower e v h
              rw [hdv] at hdx
              have hdvc : dv = some dx := Option.some_inj.mp hdx
              subst hdvc
              have hclt := ltDist_some_iff.mp hlt
              rw [hxv]
              exact ⟨_, le_trans (le_of_lt hclt) hdxle, lookupA_updA_self _ _ _⟩
            · obtain ⟨dx, hdxle, hdx⟩ := hinv.pqLower e x h
              exact ⟨dx, hdxle, by rw [lookupA_updA_ne dist hxv]; exact hdx⟩
        · intro x cx hxne hx
          by_cases hxv : x = v
          · rw [hxv, lookupA_updA_self] at hx
            rw [hxv, ← Option.some_inj.mp (Option.some_inj.mp hx)]
            exact Or.inl (List.mem_cons_self _ _)
          · rw [lookupA_updA_ne dist hxv] at hx
            rcases hinv.cleanW x cx hxne hx with h | h
            · exact Or.inl (List.mem_cons_of_mem _ h)
            · exact Or.inr (cleanAt_mono hpw1 h)
        · exact ⟨c₀, hc₀le, by rw [lookupA_updA_ne dist (Ne.symm hvne_u0)]; exact hc₀⟩
        · rw [lookupA_updA_ne dist (Ne.symm hvne_s)]
          exact hinv.start0
        · rw [lookupA_updA_ne pred (Ne.symm hvne_s)]
          exact hinv.predStart
      obtain ⟨pq₂, dist₂, pred₂, heq, hinv₂, hu0eq, hpw₂, hmono₂, hrest₂⟩ :=
        ih ((d + edgeWeight g.edge_weights (u₀, v), v) :: pq)
          (updA dist v (some (d + edgeWeight g.edge_weights (u₀, v))))
          (updA pred v (some u₀))
          (fun x hx => hrest x (List.mem_cons_of_mem _ hx)) hinv2
      refine ⟨pq₂, dist₂, pred₂, ?_, hinv₂, ?_, ?_, ?_, ?_⟩
      · simp only [relax, hdv, if_pos hlt]
        exact heq
      · rw [hu0eq, lookupA_updA_ne dist (Ne.symm hvne_u0)]
      · intro y cy hy
        obtain ⟨cy', h1, h2⟩ := hpw1 y cy hy
        obtain ⟨cy'', h3, h4⟩ := hpw₂ y cy' h2
        exact ⟨cy'', le_trans h3 h1, h4⟩
      · intro e x hex
        exact hmono₂ e x (List.mem_cons_of_mem _ hex)
      · intro x hx
        rcases List.mem_cons.mp hx with h | h
        · subst h
          obtain ⟨c', h1, h2⟩ := hpw₂ x _ (lookupA_updA_self dist x _)
          exact ⟨c', h1, h2⟩
        · exact hrest₂ x h
    · -- no improvement: the stored distance is finite and at most the candidate
      obtain ⟨m, hdvm, hm⟩ : ∃ m, dv = some m ∧
          m ≤ d + edgeWeight g.edge_weights (u₀, v) := by
        cases hx : dv with
        | none =>
          rw [hx] at hlt
          exact absurd (ltDist_none _) hlt
        | some m =>
          rw [hx] at hlt
          refine ⟨m, rfl, ?_⟩
          by_contra hcon
          exact hlt (ltDist_some_iff.mpr (by omega))
      subst hdvm
      obtain ⟨pq₂, dist₂, pred₂, heq, hinv₂, hu0eq, hpw₂, hmono₂, hrest₂⟩ :=
        ih pq dist pred (fun x hx => hrest x (List.mem_cons_of_mem _ hx)) hinv
      refine ⟨pq₂, dist₂, pred₂, ?_, hinv₂, hu0eq, hpw₂, hmono₂, ?_⟩
      · simp only [relax, hdv, if_neg hlt]
        exact heq
      · intro x hx
        rcases List.mem_cons.mp hx with h | h
        · subst h
          obtain ⟨c', h1, h2⟩ := hpw₂ x m hdv
          exact ⟨c', le_trans h1 hm, h2⟩
        · exact hrest₂ x h

end RelaxInvProof

section LoopInvProof

variable {V : Type} [DecidableEq V]

/-- One full iteration of the outer loop (pop plus relaxation round)
succeeds and preserves the loop invariant. -/
theorem loopInv_step [LinearOrder V] {g : Graph V ℕ} {s : V}
    {pq : List (ℕ × V)} {dist : List (V × Option ℕ)} {pred : List (V × Option V)}
    {d : ℕ} {u₀ : V} {nbrs : List V}
    (hwf : g.WellFormed) (hinv : LoopInv g s pq dist pred)
    (hm : heapMin pq = some (d, u₀)) (ha : lookupA g.adjacency_list u₀ = some nbrs) :
    ∃ pq₂ dist₂ pred₂,
      relax g.edge_weights d u₀ nbrs (pq.erase (d, u₀)) dist pred =
        some (pq₂, dist₂, pred₂) ∧
      LoopInv g s pq₂ dist₂ pred₂ := by
  have hmem : (d, u₀) ∈ pq := heapMin_mem hm
  have hwalk : WalkTo g s u₀ d := hinv.pqSound d u₀ hmem
  have hrinv : RelaxInv g s u₀ d (pq.erase (d, u₀)) dist pred := by
    refine ⟨hinv.keys, hinv.sound, ?_, ?_, ?_, ?_, ?_, hinv.start0, hinv.predStart⟩
    · exact fun e x h => hinv.pqSound e x (List.mem_of_mem_erase h)
    · exact fun e x h => hinv.pqKeys e x (List.mem_of_mem_erase h)
    · exact fun e x h => hinv.pqLower e x (List.mem_of_mem_erase h)
    · intro x c hxne hx
      rcases hinv.clean x c hx with h | h
      · refine Or.inl (List.mem_erase_of_ne ?_ |>.mpr h)
        intro hcon
        rw [Prod.mk.injEq] at hcon
        exact hxne hcon.2
      · exact Or.inr h
    · obtain ⟨c₀, hc₀le, hc₀⟩ := hinv.pqLower d u₀ hmem
      exact ⟨c₀, hc₀le, hc₀⟩
  have hrest : ∀ v ∈ nbrs, v ∈ g.get_adjacent_vertices u₀ := by
    intro v hv
    unfold Graph.get_adjacent_vertices
    rw [ha]
    exact hv
  obtain ⟨pq₂, dist₂, pred₂, heq, hinv₂, hu0eq, hpw, hmono, hcleanpart⟩ :=
    relax_inv hwf hwalk nbrs (pq.erase (d, u₀)) dist pred hrest hrinv
  obtain ⟨c₀, hc₀le, hc₀⟩ := hrinv.u0val
  refine ⟨pq₂, dist₂, pred₂, heq, ?_⟩
  refine ⟨hinv₂.keys, hinv₂.sound, hinv₂.pqSound, hinv₂.pqKeys, hinv₂.pqLower, ?_,
    hinv₂.start0, hinv₂.predStart⟩
  intro x c hx
  by_cases hxu : x = u₀
  · rw [hxu] at hx
    rw [hu0eq, hc₀] at hx
    have hcc : c₀ = c := Option.some_inj.mp (Option.some_inj.mp hx)
    subst hcc
    by_cases hcd : c₀ = d
    · subst hcd
      right
      rw [hxu]
      intro y hy
      have hy' : y ∈ nbrs := by
        unfold Graph.get_adjacent_vertices at hy
        rw [ha] at hy
        exact hy
      exact hcleanpart y hy'
    · have hlt : c₀ < d := lt_of_le_of_ne hc₀le hcd
      rcases hinv.clean u₀ c₀ hc₀ with h | h
      · left
        rw [hxu]
        refine hmono c₀ u₀ ?_
        refine (List.mem_erase_of_ne ?_).mpr h
        intro hcon
        rw [Prod.mk.injEq] at hcon
        omega
      · right
        rw [hxu]
        exact cleanAt_mono hpw h
  · exact hinv₂.cleanW x c hxu hx

/-- On any invariant-satisfying state the outer loop terminates normally,
returning tables that satisfy the invariant with an empty queue. -/
theorem dijkstraLoop_inv [LinearOrder V] {g : Graph V ℕ} {s : V}
    (hwf : g.WellFormed) :
    ∀ (pq : List (ℕ × V)) (dist : List (V × Option ℕ)) (pred : List (V × Option V)),
      LoopInv g s pq dist pred →
      ∃ dist₂ pred₂,
        dijkstraLoop g.adjacency_list g.edge_weights pq dist pred =
          some (dist₂, pred₂) ∧ LoopInv g s [] dist₂ pred₂ := by
  intro pq dist pred
  induction pq, dist, pred using dijkstraLoop.induct g.adjacency_list g.edge_weights with
  | case1 pq dist pred hm =>
    intro hinv
    rw [heapMin_eq_none_iff] at hm
    subst hm
    exact ⟨dist, pred, dijkstraLoop_nil _ _ _ _, hinv⟩
  | case2 pq dist pred d u hm ha =>
    intro hinv
    have hmem : (d, u) ∈ pq := heapMin_mem hm
    have hu : u ∈ g.vertices := hinv.pqKeys d u hmem
    rw [lookupA_eq_none_iff_not_mem] at ha
    exact absurd hu ha
  | case3 pq dist pred d u hm nbrs ha hr =>
    intro hinv
    obtain ⟨pq₂, dist₂, pred₂, heq, _⟩ := loopInv_step hwf hinv hm ha
    rw [heq] at hr
    exact Option.noConfusion hr
  | case4 pq dist pred d u hm nbrs ha pq₂ dist₂ pred₂ hr ih =>
    intro hinv
    obtain ⟨pq₃, dist₃, pred₃, heq, hinv₂⟩ := loopInv_step hwf hinv hm ha
    have hr' := hr
    rw [heq] at hr'
    have h3 := Option.some_inj.mp hr'
    rw [show pq₃ = pq₂ from congrArg Prod.fst h3,
      show dist₃ = dist₂ from congrArg (fun x => x.2.1) h3,
      show pred₃ = pred₂ from congrArg (fun x => x.2.2) h3] at hinv₂
    obtain ⟨dist₄, pred₄, heq₄, hinv₄⟩ := ih hinv₂
    refine ⟨dist₄, pred₄, ?_, hinv₄⟩
    rw [dijkstraLoop_step hm ha hr]
    exact heq₄

/-- At loop exit every walk weight bounds the stored distance from above. -/
theorem loopInv_final_le {g : Graph V ℕ} {s : V}
    {dist : List (V × Option ℕ)} {pred : List (V × Option V)}
    (hinv : LoopInv g s [] dist pred) :
    ∀ v c, WalkTo g s v c → ∃ m ≤ c, lookupA dist v = some (some m) := by
  intro v c hw
  induction hw with
  | nil => exact ⟨0, le_refl 0, hinv.start0⟩
  | cons hw hadj ih =>
    rename_i u y cu
    obtain ⟨mu, hmu, hlu⟩ := ih
    rcases hinv.clean u mu hlu with h | h
    · simp at h
    · obtain ⟨dv, hdvle, hdvl⟩ := h y hadj
      exact ⟨dv, by
        have := Nat.add_le_add hmu (le_refl (edgeWeight g.edge_weights (u, y)))
        omega, hdvl⟩

/-- `dijkstra` on a well-formed graph with a known start vertex returns
tables whose distance entries are exactly the minimum walk weights (the
infinite sentinel on unreachable vertices), with the start's predecessor
`None` and one distance entry per vertex. -/
theorem dijkstra_correct [LinearOrder V] {g : Graph V ℕ} {s : V}
    (hwf : g.WellFormed) (hs : s ∈ g.vertices) :
    ∃ dist pred, g.dijkstra s = some (dist, pred) ∧
      dist.map Prod.fst = g.vertices ∧
      lookupA pred s = some none ∧
      lookupA dist s = some (some 0) ∧
      ∀ v ∈ g.vertices, ∃ dv, lookupA dist v = some dv ∧ IsMinDist g s v dv := by
  have hkeys0 : (g.adjacency_list.map (fun p => (p.1, (none : Option ℕ)))).map Prod.fst
      = g.vertices := keys_map_val g.adjacency_list none
  have hsk : s ∈ (g.adjacency_list.map (fun p => (p.1, (none : Option ℕ)))).map Prod.fst := by
    rw [hkeys0]; exact hs
  have hlook0 : ∀ v, lookupA
      (updA (g.adjacency_list.map (fun p => (p.1, (none : Option ℕ)))) s (some 0)) v =
      if v = s then some (some 0) else (lookupA g.adjacency_list v).map (fun _ => none) := by
    intro v
    by_cases hv : v = s
    · rw [hv, if_pos rfl, lookupA_updA_self]
    · rw [if_neg hv, lookupA_updA_ne _ hv, lookupA_map_val]
  have hinv0 : LoopInv g s [(0, s)]
      (updA (g.adjacency_list.map (fun p => (p.1, (none : Option ℕ)))) s (some 0))
      (g.adjacency_list.map (fun p => (p.1, (none : Option V)))) := by
    refine ⟨?_, ?_, ?_, ?_, ?_, ?_, ?_, ?_⟩
    · rw [keys_updA_of_mem _ _ _ hsk, hkeys0]
    · intro v c hv
      rw [hlook0 v] at hv
      by_cases hvs : v = s
      · rw [if_pos hvs] at hv
        have h0 : (0 : ℕ) = c := Option.some_inj.mp (Option.some_inj.mp hv)
        rw [hvs, ← h0]
        exact WalkTo.nil
      · rw [if_neg hvs] at hv
        cases hl : lookupA g.adjacency_list v <;> rw [hl] at hv <;> simp at hv
    · intro e x h
      rw [List.mem_singleton, Prod.mk.injEq] at h
      rw [h.1, h.2]
      exact WalkTo.nil
    · intro e x h
      rw [List.mem_singleton, Prod.mk.injEq] at h
      rw [h.2]
      exact hs
    · intro e x h
      rw [List.mem_singleton, Prod.mk.injEq] at h
      rw [h.1, h.2]
      exact ⟨0, le_refl 0, by rw [hlook0, if_pos rfl]⟩
    · intro x c hx
      rw [hlook0 x] at hx
      by_cases hxs : x = s
      · rw [if_pos hxs] at hx
        have h0 : (0 : ℕ) = c := Option.some_inj.mp (Option.some_inj.mp hx)
        left
        rw [hxs, ← h0]
        exact List.mem_singleton.mpr rfl
      · rw [if_neg hxs] at hx
        cases hl : lookupA g.adjacency_list x <;> rw [hl] at hx <;> simp at hx
    · rw [hlook0, if_pos rfl]
    · rw [lookupA_map_val]
      cases hl : lookupA g.adjacency_list s with
      | none =>
        rw [lookupA_eq_none_iff_not_mem] at hl
        exact absurd hs hl
      | some l => rfl
  obtain ⟨dist, pred, heq, hinv⟩ := dijkstraLoop_inv hwf _ _ _ hinv0
  refine ⟨dist, pred, heq, hinv.keys, hinv.predStart, hinv.start0, ?_⟩
  intro v hv
  have hk : v ∈ dist.map Prod.fst := by rw [hinv.keys]; exact hv
  obtain ⟨dv, hdv⟩ := Option.isSome_iff_exists.mp ((lookupA_isSome_iff_mem dist v).mpr hk)
  refine ⟨dv, hdv, ?_⟩
  cases dv with
  | some c =>
    refine ⟨hinv.sound v c hdv, ?_⟩
    intro c' hw
    obtain ⟨m, hm, hl⟩ := loopInv_final_le hinv v c' hw
    rw [hdv] at hl
    rw [Option.some_inj.mp (Option.some_inj.mp hl)]
    exact hm
  | none =>
    intro c hw
    obtain ⟨m, hm, hl⟩ := loopInv_final_le hinv v c hw
    rw [hdv] at hl
    exact Option.noConfusion (Option.some_inj.mp hl)

end LoopInvProof

section ConcreteGraphs

/-- The spec's running example: the undirected graph built by
`addEdge(A,B,1)`, `addEdge(B,C,2)`, `addEdge(A,C,5)`. -/
def gEx : Graph String ℕ :=
  (((Graph.empty false).add_edge "A" "B" 1).add_edge "B" "C" 2).add_edge "A" "C" 5

/-- The distance table `dijkstra("A")` produces on `gEx`. -/
def gExDist : List (String × Option ℕ) := [("A", some 0), ("B", some 1), ("C", some 3)]

/-- The predecessor table `dijkstra("A")` produces on `gEx`. -/
def gExPred : List (String × Option String) := [("A", none), ("B", some "A"), ("C", some "B")]

theorem gEx_dijkstra_eval : gEx.dijkstra "A" = some (gExDist, gExPred) := by
  have h0 : gEx.dijkstra "A" = dijkstraLoop gEx.adjacency_list gEx.edge_weights [(0, "A")]
      [("A", some 0), ("B", none), ("C", none)]
      [("A", none), ("B", none), ("C", none)] := by
    rw [Graph.dijkstra]
    congr 1
  have s1 : dijkstraLoop gEx.adjacency_list gEx.edge_weights [(0, "A")]
      [("A", some 0), ("B", none), ("C", none)]
      [("A", none), ("B", none), ("C", none)] =
    dijkstraLoop gEx.adjacency_list gEx.edge_weights [(5, "C"), (1, "B")]
      [("A", some 0), ("B", some 1), ("C", some 5)]
      [("A", none), ("B", some "A"), ("C", some "A")] :=
    dijkstraLoop_step (d := 0) (u := "A") (n := ["B", "C"])
      (by decide) (by decide) (by decide)
  have s2 : dijkstraLoop gEx.adjacency_list gEx.edge_weights [(5, "C"), (1, "B")]
      [("A", some 0), ("B", some 1), ("C", some 5)]
      [("A", none), ("B", some "A"), ("C", some "A")] =
    dijkstraLoop gEx.adjacency_list gEx.edge_weights [(3, "C"), (5, "C")] gExDist gExPred :=
    dijkstraLoop_step (d := 1) (u := "B") (n := ["A", "C"])
      (by decide) (by decide) (by decide)
  have s3 : dijkstraLoop gEx.adjacency_list gEx.edge_weights [(3, "C"), (5, "C")]
      gExDist gExPred =
    dijkstraLoop gEx.adjacency_list gEx.edge_weights [(5, "C")] gExDist gExPred :=
    dijkstraLoop_step (d := 3) (u := "C") (n := ["B", "A"])
      (by decide) (by decide) (by decide)
  have s4 : dijkstraLoop gEx.adjacency_list gEx.edge_weights [(5, "C")] gExDist gExPred =
    dijkstraLoop gEx.adjacency_list gEx.edge_weights [] gExDist gExPred :=
    dijkstraLoop_step (d := 5) (u := "C") (n := ["B", "A"])
      (by decide) (by decide) (by decide)
  rw [h0, s1, s2, s3, s4, dijkstraLoop_nil]

theorem gEx_shortest_path_eval :
    gEx.shortest_path "A" "C" = some (SPResult.found 3 ["A", "B", "C"]) := by
  rw [Graph.shortest_path, gEx_dijkstra_eval]
  decide

theorem gEx_shortest_path_self_eval :
    gEx.shortest_path "A" "A" = some (SPResult.found 0 []) := by
  rw [Graph.shortest_path, gEx_dijkstra_eval]
  decide

end ConcreteGraphs

section ShortestPathLemmas

variable {V : Type} [DecidableEq V] [LinearOrder V]

/-- `shortest_path(start, start)` on a well-formed graph: cost `0` and the
*empty* path - the backward walk never runs and the trailing
`if path:` guard skips the final insert. -/
theorem shortest_path_self {g : Graph V ℕ} {s : V}
    (hwf : g.WellFormed) (hs : s ∈ g.vertices) :
    g.shortest_path s s = some (SPResult.found 0 []) := by
  obtain ⟨dist, pred, heq, hkeys, hpred, hstart, _⟩ := dijkstra_correct hwf hs
  have hwb : walkBack pred (pred.length + 1) s [] = some (s, []) := by
    show walkBack pred (Nat.succ pred.length) s [] = some (s, [])
    simp only [walkBack, hpred]
  rw [Graph.shortest_path, heq]
  simp only [hstart, hwb]
  rfl

/-- When no walk reaches `e`, `shortest_path` returns the no-path result. -/
theorem shortest_path_unreachable {g : Graph V ℕ} {s e : V}
    (hwf : g.WellFormed) (hs : s ∈ g.vertices) (he : e ∈ g.vertices)
    (hun : ∀ c, ¬ WalkTo g s e c) :
    g.shortest_path s e = some SPResult.noPath := by
  obtain ⟨dist, pred, heq, hkeys, hpred, hstart, hmin⟩ := dijkstra_correct hwf hs
  obtain ⟨dv, hdv, hismin⟩ := hmin e he
  have hnone : dv = none := by
    cases dv with
    | none => rfl
    | some c => exact absurd hismin.1 (hun c)
  subst hnone
  rw [Graph.shortest_path, heq]
  simp only [hdv]

/-- `dijkstra` with an unknown start vertex fails with the `KeyError` of
`self.adjacency_list[current_vertex]` on the very first pop. -/
theorem dijkstra_unknown_start {g : Graph V ℕ} {s : V} (hs : s ∉ g.vertices) :
    g.dijkstra s = none := by
  rw [Graph.dijkstra]
  refine dijkstraLoop_key_err (d := 0) (u := s) rfl ?_
  rw [lookupA_eq_none_iff_not_mem]
  exact hs

theorem shortest_path_unknown_start {g : Graph V ℕ} {s e : V} (hs : s ∉ g.vertices) :
    g.shortest_path s e = none := by
  rw [Graph.shortest_path, dijkstra_unknown_start hs]

/-- `shortest_path` with an unknown end vertex fails with the `KeyError` of
`distances[end]`. -/
theorem shortest_path_unknown_end {g : Graph V ℕ} {s e : V}
    (hwf : g.WellFormed) (hs : s ∈ g.vertices) (he : e ∉ g.vertices) :
    g.shortest_path s e = none := by
  obtain ⟨dist, pred, heq, hkeys, hpred, hstart, _⟩ := dijkstra_correct hwf hs
  have hnone : lookupA dist e = none := by
    rw [lookupA_eq_none_iff_not_mem, hkeys]
    exact he
  rw [Graph.shortest_path, heq]
  simp only [hnone]

end ShortestPathLemmas

section PathRefinement

variable {V : Type} [DecidableEq V]

/-- A walk together with its full vertex trace (endpoints included). -/
inductive WalkVia (g : Graph V ℕ) (s : V) : List V → V → ℕ → Prop
  | nil : WalkVia g s [s] s 0
  | cons {vs : List V} {u v : V} {c : ℕ} :
      WalkVia g s vs u c → v ∈ g.get_adjacent_vertices u →
      WalkVia g s (vs ++ [v]) v (c + edgeWeight g.edge_weights (u, v))

/-- A simple path from `s` to `v` of weight `c`: a walk whose vertex trace
has no repeats. -/
def PathTo (g : Graph V ℕ) (s v : V) (c : ℕ) : Prop :=
  ∃ vs, WalkVia g s vs v c ∧ vs.Nodup

/-- The path counterpart of `IsMinDist`: a finite entry is the weight of
some simple path and minimal among all simple paths; the sentinel means no
simple path exists. -/
def IsMinPathDist (g : Graph V ℕ) (s v : V) : Option ℕ → Prop
  | some c => PathTo g s v c ∧ ∀ c', PathTo g s v c' → c ≤ c'
  | none => ∀ c, ¬ PathTo g s v c

theorem walkTo_of_walkVia {g : Graph V ℕ} {s : V} {vs : List V} {v : V} {c : ℕ}
    (h : WalkVia g s vs v c) : WalkTo g s v c := by
  induction h with
  | nil => exact WalkTo.nil
  | cons hw hadj ih => exact WalkTo.cons ih hadj

theorem walkVia_of_walkTo {g : Graph V ℕ} {s v : V} {c : ℕ}
    (h : WalkTo g s v c) : ∃ vs, WalkVia g s vs v c := by
  induction h with
  | nil => exact ⟨[s], WalkVia.nil⟩
  | cons hw hadj ih =>
    obtain ⟨vs, hvs⟩ := ih
    exact ⟨vs ++ [_], WalkVia.cons hvs hadj⟩

theorem walkVia_cut {g : Graph V ℕ} {s : V} {vs : List V} {u : V} {c : ℕ}
    (h : WalkVia g s vs u c) (hnd : vs.Nodup) :
    ∀ v ∈ vs, ∃ vs₁ c₁, WalkVia g s vs₁ v c₁ ∧ vs₁.Nodup ∧ c₁ ≤ c := by
  induction h with
  | nil =>
    intro v hv
    rw [List.mem_singleton] at hv
    subst hv
    exact ⟨[v], 0, WalkVia.nil, List.nodup_singleton v, le_refl 0⟩
  | cons hw hadj ih =>
    rename_i vs u y c
    intro v hv
    have hnd' : vs.Nodup := (List.nodup_append.mp hnd).1
    rcases List.mem_append.mp hv with h | h
    · obtain ⟨vs₁, c₁, hw₁, hnd₁, hle₁⟩ := ih hnd' v h
      exact ⟨vs₁, c₁, hw₁, hnd₁, le_trans hle₁ (Nat.le_add_right _ _)⟩
    · rw [List.mem_singleton] at h
      subst h
      exact ⟨vs ++ [v], _, WalkVia.cons hw hadj, hnd, le_refl _⟩

theorem walkVia_to_path {g : Graph V ℕ} {s : V} {vs : List V} {v : V} {c : ℕ}
    (h : WalkVia g s vs v c) :
    ∃ c₁ ≤ c, PathTo g s v c₁ := by
  induction h with
  | nil => exact ⟨0, le_refl 0, [s], WalkVia.nil, List.nodup_singleton s⟩
  | cons hw hadj ih =>
    rename_i vs u y c
    obtain ⟨c₁, hle, vs₁, hw₁, hnd₁⟩ := ih
    by_cases hy : y ∈ vs₁
    · obtain ⟨vs₂, c₂, hw₂, hnd₂, hle₂⟩ := walkVia_cut hw₁ hnd₁ y hy
      exact ⟨c₂, le_trans (le_trans hle₂ hle) (Nat.le_add_right _ _), vs₂, hw₂, hnd₂⟩
    · refine ⟨c₁ + edgeWeight g.edge_weights (u, y), by omega,
        vs₁ ++ [y], WalkVia.cons hw₁ hadj, ?_⟩
      rw [List.nodup_append]
      exact ⟨hnd₁, List.nodup_singleton y, by simpa using hy⟩

theorem isMinPathDist_of_isMinDist {g : Graph V ℕ} {s v : V} {dv : Option ℕ}
    (h : IsMinDist g s v dv) : IsMinPathDist g s v dv := by
  cases dv with
  | some c =>
    obtain ⟨hw, hmin⟩ := h
    obtain ⟨vs, hvs⟩ := walkVia_of_walkTo hw
    obtain ⟨c₁, hle, hpath⟩ := walkVia_to_path hvs
    have hge : c ≤ c₁ := by
      obtain ⟨vs₁, hw₁, _⟩ := hpath
      exact hmin c₁ (walkTo_of_walkVia hw₁)
    have hcc : c₁ = c := le_antisymm hle hge
    subst hcc
    refine ⟨hpath, ?_⟩
    intro c' hp
    obtain ⟨vs', hw', _⟩ := hp
    exact hmin c' (walkTo_of_walkVia hw')
  | none =>
    intro c hp
    obtain ⟨vs', hw', _⟩ := hp
    exact h c (walkTo_of_walkVia hw')

end PathRefinement

section OpsMachinery

variable {V W : Type} [DecidableEq V]

/-- One mutating call of the core API. -/
inductive GOp (V W : Type) : Type
  | addV (v : V)
  | addE (s t : V) (w : W)

/-- Apply one mutating call. -/
def applyOp (g : Graph V W) : GOp V W → Graph V W
  | GOp.addV v => g.add_vertex v
  | GOp.addE s t w => g.add_edge s t w

/-- Apply a sequence of mutating calls in order. -/
def applyOps (g : Graph V W) (ops : List (GOp V W)) : Graph V W :=
  ops.foldl applyOp g

/-- The identifiers an operation passes to the graph. -/
def identsOf : GOp V W → List V
  | GOp.addV v => [v]
  | GOp.addE s t _ => [s, t]

theorem add_vertex_directed (g : Graph V W) (v : V) :
    (g.add_vertex v).directed = g.directed := by
  unfold Graph.add_vertex
  split <;> rfl

theorem add_dir_edge_directed (g : Graph V W) (s t : V) (w : W) :
    (g.add_dir_edge s t w).directed = g.directed := rfl

theorem add_edge_directed (g : Graph V W) (s t : V) (w : W) :
    (g.add_edge s t w).directed = g.directed := by
  unfold Graph.add_edge
  split <;> simp only [add_dir_edge_directed, add_vertex_directed]

/-- `add_edge` unfolded by directedness, for case analysis. -/
theorem add_edge_eq (g : Graph V W) (s t : V) (w : W) :
    g.add_edge s t w =
      if g.directed then ((g.add_vertex s).add_vertex t).add_dir_edge s t w
      else (((g.add_vertex s).add_vertex t).add_dir_edge s t w).add_dir_edge t s w := by
  unfold Graph.add_edge
  simp only [add_dir_edge_directed, add_vertex_directed]

theorem applyOp_directed (g : Graph V W) (op : GOp V W) :
    (applyOp g op).directed = g.directed := by
  cases op with
  | addV v => exact add_vertex_directed g v
  | addE s t w => exact add_edge_directed g s t w

theorem applyOps_directed (g : Graph V W) (ops : List (GOp V W)) :
    (applyOps g ops).directed = g.directed := by
  induction ops generalizing g with
  | nil => rfl
  | cons op ops ih =>
    show (applyOps (applyOp g op) ops).directed = g.directed
    rw [ih, applyOp_directed]

theorem lookupA_append_left {K A : Type} [DecidableEq K] (l l2 : List (K × A)) (k : K) :
    lookupA (l ++ l2) k =
      match lookupA l k with
      | some a => some a
      | none => lookupA l2 k := by
  induction l with
  | nil => simp [lookupA]
  | cons p xs ih =>
    obtain ⟨k₀, a₀⟩ := p
    by_cases h₀ : k₀ = k <;> simp [lookupA, h₀, ih]

/-- `add_vertex` never removes a neighbour-list entry. -/
theorem adj_mono_add_vertex (g : Graph V W) (v x y : V)
    (h : y ∈ g.get_adjacent_vertices x) :
    y ∈ (g.add_vertex v).get_adjacent_vertices x := by
  unfold Graph.add_vertex
  split
  · exact h
  · show y ∈ (lookupA (g.adjacency_list ++ [(v, [])]) x).getD []
    rw [lookupA_append_left]
    unfold Graph.get_adjacent_vertices at h
    cases hl : lookupA g.adjacency_list x with
    | none => rw [hl] at h; simp at h
    | some l => rw [hl] at h; exact h

theorem adj_mono_modifyA (l : List (V × List V)) (k : V) (t x y : V)
    (h : y ∈ (lookupA l x).getD []) :
    y ∈ (lookupA (modifyA l k (fun ns => ns ++ [t])) x).getD [] := by
  by_cases hxk : x = k
  · subst hxk
    rw [lookupA_modifyA_self]
    cases hl : lookupA l x with
    | none => rw [hl] at h; simp at h
    | some ns =>
      rw [hl] at h
      show y ∈ ns ++ [t]
      exact List.mem_append_left _ h
  · rw [lookupA_modifyA_ne l hxk]
    exact h

theorem adj_mono_add_dir_edge (g : Graph V W) (s t : V) (w : W) (x y : V)
    (h : y ∈ g.get_adjacent_vertices x) :
    y ∈ (g.add_dir_edge s t w).get_adjacent_vertices x :=
  adj_mono_modifyA g.adjacency_list s t x y h

/-- `add_edge` never removes a neighbour-list entry. -/
theorem adj_mono_add_edge (g : Graph V W) (s t : V) (w : W) (x y : V)
    (h : y ∈ g.get_adjacent_vertices x) :
    y ∈ (g.add_edge s t w).get_adjacent_vertices x := by
  have h1 := adj_mono_add_vertex (g.add_vertex s) t x y (adj_mono_add_vertex g s x y h)
  rw [add_edge_eq]
  split
  · exact adj_mono_add_dir_edge _ s t w x y h1
  · exact adj_mono_add_dir_edge _ t s w x y (adj_mono_add_dir_edge _ s t w x y h1)

theorem adj_mono_applyOps (g : Graph V W) (ops : List (GOp V W)) (x y : V)
    (h : y ∈ g.get_adjacent_vertices x) :
    y ∈ (applyOps g ops).get_adjacent_vertices x := by
  induction ops generalizing g with
  | nil => exact h
  | cons op ops ih =>
    show y ∈ (applyOps (applyOp g op) ops).get_adjacent_vertices x
    refine ih (applyOp g op) ?_
    cases op with
    | addV v => exact adj_mono_add_vertex g v x y h
    | addE a b w => exact adj_mono_add_edge g a b w x y h

theorem wkey_mono_updA {K A : Type} [DecidableEq K] (l : List (K × A)) (k k' : K) (a : A)
    (h : (lookupA l k').isSome) : (lookupA (updA l k a) k').isSome := by
  by_cases hk : k' = k
  · subst hk
    rw [lookupA_updA_self]
    rfl
  · rw [lookupA_updA_ne l hk]
    exact h

/-- `add_edge` never removes a weight entry; `add_vertex` leaves weights alone. -/
theorem wkey_mono_applyOps (g : Graph V W) (ops : List (GOp V W)) (k : V × V)
    (h : (lookupA g.edge_weights k).isSome) :
    (lookupA (applyOps g ops).edge_weights k).isSome := by
  induction ops generalizing g with
  | nil => exact h
  | cons op ops ih =>
    show (lookupA (applyOps (applyOp g op) ops).edge_weights k).isSome
    refine ih (applyOp g op) ?_
    cases op with
    | addV v =>
      show (lookupA (g.add_vertex v).edge_weights k).isSome
      unfold Graph.add_vertex
      split <;> exact h
    | addE a b w =>
      show (lookupA (g.add_edge a b w).edge_weights k).isSome
      have hbase : (lookupA ((g.add_vertex a).add_vertex b).edge_weights k).isSome := by
        unfold Graph.add_vertex
        split <;> split <;> exact h
      rw [add_edge_eq]
      split
      · exact wkey_mono_updA _ _ _ _ hbase
      · exact wkey_mono_updA _ _ _ _ (wkey_mono_updA _ _ _ _ hbase)

end OpsMachinery

section EdgeSymmetry

variable {V W : Type} [DecidableEq V]

theorem are_adjacent_true_iff (g : Graph V W) (a b : V) :
    g.are_adjacent a b = true ↔ b ∈ g.get_adjacent_vertices a := by
  simp [Graph.are_adjacent]

theorem add_vertex_key_isSome (g : Graph V W) (v : V) :
    (lookupA (g.add_vertex v).adjacency_list v).isSome := by
  unfold Graph.add_vertex
  split
  · rename_i h
    rw [lookupA_isSome_iff_mem]
    exact h
  · show (lookupA (g.adjacency_list ++ [(v, [])]) v).isSome
    rw [lookupA_append_left]
    cases hl : lookupA g.adjacency_list v with
    | none => simp [lookupA]
    | some l => rfl

theorem add_vertex_key_mono (g : Graph V W) (v x : V)
    (h : (lookupA g.adjacency_list x).isSome) :
    (lookupA (g.add_vertex v).adjacency_list x).isSome := by
  unfold Graph.add_vertex
  split
  · exact h
  · show (lookupA (g.adjacency_list ++ [(v, [])]) x).isSome
    rw [lookupA_append_left]
    cases hl : lookupA g.adjacency_list x with
    | none => rw [hl] at h; exact absurd h (by simp)
    | some l => rfl

theorem modifyA_key_isSome (l : List (V × List V)) (k x : V) (f : List V → List V)
    (h : (lookupA l x).isSome) : (lookupA (modifyA l k f) x).isSome := by
  by_cases hxk : x = k
  · subst hxk
    rw [lookupA_modifyA_self]
    cases hl : lookupA l x with
    | none => rw [hl] at h; exact absurd h (by simp)
    | some ns => rfl
  · rw [lookupA_modifyA_ne l hxk]
    exact h

/-- The immediate effect of an undirected `add_edge`: both directed entries
exist, in the adjacency lists and in the weights. -/
theorem add_edge_undirected_sym (g : Graph V W) (u v : V) (w : W)
    (hd : g.directed = false) :
    (g.add_edge u v w).are_adjacent u v = true ∧
    (g.add_edge u v w).are_adjacent v u = true ∧
    lookupA (g.add_edge u v w).edge_weights (u, v) = some w ∧
    lookupA (g.add_edge u v w).edge_weights (v, u) = some w := by
  rw [add_edge_eq, hd, if_neg (by simp)]
  have hu_key : (lookupA ((g.add_vertex u).add_vertex v).adjacency_list u).isSome :=
    add_vertex_key_mono (g.add_vertex u) v u (add_vertex_key_isSome g u)
  have hv_key : (lookupA ((g.add_vertex u).add_vertex v).adjacency_list v).isSome :=
    add_vertex_key_isSome (g.add_vertex u) v
  obtain ⟨lu, hlu⟩ := Option.isSome_iff_exists.mp hu_key
  refine ⟨?_, ?_, ?_, ?_⟩
  · rw [are_adjacent_true_iff]
    show v ∈ (lookupA (modifyA (modifyA ((g.add_vertex u).add_vertex v).adjacency_list u
      (fun l => l ++ [v])) v (fun l => l ++ [u])) u).getD []
    by_cases huv : u = v
    · subst huv
      rw [lookupA_modifyA_self, lookupA_modifyA_self, hlu]
      show u ∈ lu ++ [u] ++ [u]
      simp
    · rw [lookupA_modifyA_ne _ huv, lookupA_modifyA_self, hlu]
      show v ∈ lu ++ [v]
      simp
  · rw [are_adjacent_true_iff]
    show u ∈ (lookupA (modifyA (modifyA ((g.add_vertex u).add_vertex v).adjacency_list u
      (fun l => l ++ [v])) v (fun l => l ++ [u])) v).getD []
    have hv_key2 : (lookupA (modifyA ((g.add_vertex u).add_vertex v).adjacency_list u
        (fun l => l ++ [v])) v).isSome :=
      modifyA_key_isSome _ u v _ hv_key
    obtain ⟨lv, hlv⟩ := Option.isSome_iff_exists.mp hv_key2
    rw [lookupA_modifyA_self, hlv]
    show u ∈ lv ++ [u]
    simp
  · show lookupA (updA (updA ((g.add_vertex u).add_vertex v).edge_weights (u, v) w)
      (v, u) w) (u, v) = some w
    by_cases huv : (u, v) = (v, u)
    · rw [huv, lookupA_updA_self]
    · rw [lookupA_updA_ne _ huv, lookupA_updA_self]
  · show lookupA (updA (updA ((g.add_vertex u).add_vertex v).edge_weights (u, v) w)
      (v, u) w) (v, u) = some w
    rw [lookupA_updA_self]

end EdgeSymmetry

section SizeOrder

variable {V W : Type} [DecidableEq V]

/-- The sum of all neighbour-list lengths (the sum of degrees of an
undirected graph). -/
def sumDeg (g : Graph V W) : ℕ := (g.adjacency_list.map (fun p => p.2.length)).sum

theorem sumDeg_add_vertex (g : Graph V W) (v : V) :
    sumDeg (g.add_vertex v) = sumDeg g := by
  unfold Graph.add_vertex
  split
  · rfl
  · show ((g.adjacency_list ++ [(v, [])]).map (fun p : V × List V => p.2.length)).sum = sumDeg g
    simp [sumDeg]

theorem sumLen_modifyA_append (l : List (V × List V)) (k x : V) :
    ((modifyA l k (fun ns => ns ++ [x])).map (fun p => p.2.length)).sum =
      (l.map (fun p => p.2.length)).sum + (if k ∈ l.map Prod.fst then 1 else 0) := by
  induction l with
  | nil => simp [modifyA]
  | cons p xs ih =>
    obtain ⟨k₀, ns₀⟩ := p
    by_cases h₀ : k₀ = k
    · subst h₀
      simp [modifyA]
      omega
    · have hne : ¬(k = k₀) := fun hh => h₀ hh.symm
      simp only [modifyA, if_neg h₀, List.map_cons, List.sum_cons, ih]
      by_cases hk : k ∈ xs.map Prod.fst
      · rw [if_pos hk, if_pos (List.mem_cons_of_mem k₀ hk)]
        omega
      · have hnc : ¬(k ∈ k₀ :: xs.map Prod.fst) := by
          intro hcon
          rcases List.mem_cons.mp hcon with h | h
          · exact hne h
          · exact hk h
        rw [if_neg hk, if_neg hnc]
        omega

theorem sumDeg_add_dir_edge (g : Graph V W) (s t : V) (w : W)
    (hs : s ∈ g.vertices) : sumDeg (g.add_dir_edge s t w) = sumDeg g + 1 := by
  show ((modifyA g.adjacency_list s (fun ns => ns ++ [t])).map
    (fun p : V × List V => p.2.length)).sum = sumDeg g + 1
  have hs' : s ∈ g.adjacency_list.map Prod.fst := hs
  rw [sumLen_modifyA_append, if_pos hs']
  rfl

theorem add_vertex_mem_self (g : Graph V W) (v : V) : v ∈ (g.add_vertex v).vertices := by
  unfold Graph.add_vertex
  split
  · rename_i h
    exact h
  · show v ∈ (g.adjacency_list ++ [(v, [])]).map Prod.fst
    simp

theorem add_vertex_mem_mono (g : Graph V W) (v x : V) (h : x ∈ g.vertices) :
    x ∈ (g.add_vertex v).vertices := by
  unfold Graph.add_vertex
  split
  · exact h
  · show x ∈ (g.adjacency_list ++ [(v, [])]).map Prod.fst
    rw [List.map_append]
    exact List.mem_append_left _ h

theorem add_dir_edge_vertices (g : Graph V W) (s t : V) (w : W) :
    (g.add_dir_edge s t w).vertices = g.vertices := keys_modifyA _ _ _

/-- An undirected `add_edge` adds exactly two neighbour-list entries. -/
theorem sumDeg_add_edge_undirected (g : Graph V W) (s t : V) (w : W)
    (hd : g.directed = false) : sumDeg (g.add_edge s t w) = sumDeg g + 2 := by
  rw [add_edge_eq, hd, if_neg (by simp)]
  have hs : s ∈ ((g.add_vertex s).add_vertex t).vertices :=
    add_vertex_mem_mono _ t s (add_vertex_mem_self g s)
  have ht : t ∈ (((g.add_vertex s).add_vertex t).add_dir_edge s t w).vertices := by
    rw [add_dir_edge_vertices]
    exact add_vertex_mem_self (g.add_vertex s) t
  rw [sumDeg_add_dir_edge _ t s w ht, sumDeg_add_dir_edge _ s t w hs,
    sumDeg_add_vertex, sumDeg_add_vertex]

/-- Folding a list of edges into an undirected graph. -/
theorem sumDeg_fold_edges (edges : List (V × V × W)) :
    ∀ g : Graph V W, g.directed = false →
      sumDeg (edges.foldl (fun h e => h.add_edge e.1 e.2.1 e.2.2) g) =
        sumDeg g + 2 * edges.length := by
  induction edges with
  | nil => intro g hg; simp
  | cons e edges ih =>
    intro g hg
    show sumDeg (edges.foldl _ (g.add_edge e.1 e.2.1 e.2.2)) = sumDeg g + 2 * (e :: edges).length
    rw [ih _ (by rw [add_edge_directed]; exact hg), sumDeg_add_edge_undirected g _ _ _ hg]
    simp
    omega

theorem fold_edges_directed (edges : List (V × V × W)) :
    ∀ g : Graph V W, (edges.foldl (fun h e => h.add_edge e.1 e.2.1 e.2.2) g).directed
      = g.directed := by
  induction edges with
  | nil => intro g; rfl
  | cons e edges ih =>
    intro g
    show (edges.foldl _ (g.add_edge e.1 e.2.1 e.2.2)).directed = g.directed
    rw [ih, add_edge_directed]

omit [DecidableEq V] in
theorem get_size_undirected (g : Graph V W) (hd : g.directed = false) :
    g.get_size = sumDeg g / 2 := by
  unfold Graph.get_size
  rw [hd]
  rfl

omit [DecidableEq V] in
theorem get_size_directed (g : Graph V W) (hd : g.directed = true) :
    g.get_size = sumDeg g := by
  unfold Graph.get_size
  rw [hd]
  exact Nat.div_one _

end SizeOrder

section OrderCount

variable {V W : Type} [DecidableEq V]

theorem add_vertex_vertices_nodup (g : Graph V W) (v : V) (h : g.vertices.Nodup) :
    (g.add_vertex v).vertices.Nodup := by
  unfold Graph.add_vertex
  split
  · exact h
  · rename_i hmem
    show ((g.adjacency_list ++ [(v, [])]).map Prod.fst).Nodup
    rw [List.map_append]
    simp only [List.map_cons, List.map_nil]
    rw [List.nodup_append]
    refine ⟨h, List.nodup_singleton v, ?_⟩
    intro a ha hav
    rw [List.mem_singleton] at hav
    subst hav
    exact hmem ha

theorem add_vertex_vertices_toFinset (g : Graph V W) (v : V) :
    (g.add_vertex v).vertices.toFinset = insert v g.vertices.toFinset := by
  unfold Graph.add_vertex
  split
  · rename_i hmem
    rw [Finset.insert_eq_self.mpr (by simpa using hmem)]
  · show ((g.adjacency_list ++ [(v, [])]).map Prod.fst).toFinset = _
    rw [List.map_append]
    ext x
    simp [Graph.vertices, or_comm]

theorem add_edge_vertices (g : Graph V W) (s t : V) (w : W) :
    (g.add_edge s t w).vertices = ((g.add_vertex s).add_vertex t).vertices := by
  rw [add_edge_eq]
  split
  · exact add_dir_edge_vertices _ s t w
  · rw [add_dir_edge_vertices, add_dir_edge_vertices]

theorem applyOps_vertices_toFinset (ops : List (GOp V W)) :
    ∀ g : Graph V W, (applyOps g ops).vertices.toFinset =
      g.vertices.toFinset ∪ (ops.flatMap identsOf).toFinset := by
  induction ops with
  | nil => intro g; simp [applyOps]
  | cons op ops ih =>
    intro g
    show (applyOps (applyOp g op) ops).vertices.toFinset = _
    rw [ih]
    cases op with
    | addV v =>
      show (g.add_vertex v).vertices.toFinset ∪ _ = _
      rw [add_vertex_vertices_toFinset]
      ext x
      simp [identsOf, List.mem_flatMap]
    | addE a b w =>
      show (g.add_edge a b w).vertices.toFinset ∪ _ = _
      rw [add_edge_vertices, add_vertex_vertices_toFinset, add_vertex_vertices_toFinset]
      ext x
      simp [identsOf, List.mem_flatMap]
      tauto

theorem applyOps_vertices_nodup (ops : List (GOp V W)) :
    ∀ g : Graph V W, g.vertices.Nodup → (applyOps g ops).vertices.Nodup := by
  induction ops with
  | nil => intro g h; exact h
  | cons op ops ih =>
    intro g h
    show (applyOps (applyOp g op) ops).vertices.Nodup
    refine ih _ ?_
    cases op with
    | addV v => exact add_vertex_vertices_nodup g v h
    | addE a b w =>
      show (g.add_edge a b w).vertices.Nodup
      rw [add_edge_vertices]
      exact add_vertex_vertices_nodup _ b (add_vertex_vertices_nodup g a h)

theorem get_order_eq_card_idents (d : Bool) (ops : List (GOp V W)) :
    (applyOps (Graph.empty d : Graph V W) ops).get_order =
      (ops.flatMap identsOf).toFinset.card := by
  have hnodup : (applyOps (Graph.empty d : Graph V W) ops).vertices.Nodup :=
    applyOps_vertices_nodup ops _ (by simp [Graph.empty, Graph.vertices])
  have hfin : (applyOps (Graph.empty d : Graph V W) ops).vertices.toFinset =
      (ops.flatMap identsOf).toFinset := by
    rw [applyOps_vertices_toFinset]
    simp [Graph.empty, Graph.vertices]
  have hord : (applyOps (Graph.empty d : Graph V W) ops).get_order =
      (applyOps (Graph.empty d : Graph V W) ops).vertices.length := by
    unfold Graph.get_order Graph.vertices
    simp
  rw [hord, ← List.toFinset_card_of_nodup hnodup, hfin]

end OrderCount

section EulerianCount

variable {V W : Type} [DecidableEq V]

/-- The specification's count: the number of vertices whose neighbour-list
length is odd (multi-edge multiplicities included, directedness and
connectivity ignored). -/
def oddDegreeCount (g : Graph V W) : ℕ :=
  (g.adjacency_list.filter (fun p => decide (Odd p.2.length))).length

omit [DecidableEq V] in
theorem countP_mod_eq_oddDegreeCount (g : Graph V W) :
    g.adjacency_list.countP (fun p => p.2.length % 2 != 0) = oddDegreeCount g := by
  unfold oddDegreeCount
  rw [← List.countP_eq_length_filter]
  refine List.countP_congr ?_
  intro p _
  have h2 : p.2.length % 2 = 0 ∨ p.2.length % 2 = 1 := Nat.mod_two_eq_zero_or_one _
  rcases h2 with h | h <;> simp [h, Nat.odd_iff]

omit [DecidableEq V] in
theorem is_eulerian_cases (g : Graph V W) :
    (g.is_eulerian = (true, false) ↔ oddDegreeCount g = 0) ∧
    (g.is_eulerian = (false, true) ↔ oddDegreeCount g = 2) ∧
    (g.is_eulerian = (false, false) ↔ (oddDegreeCount g ≠ 0 ∧ oddDegreeCount g ≠ 2)) := by
  unfold Graph.is_eulerian
  rw [countP_mod_eq_oddDegreeCount]
  by_cases h0 : oddDegreeCount g = 0
  · rw [if_pos h0]
    refine ⟨by simp [h0], ?_, ?_⟩
    · constructor
      · intro h
        exact absurd (congrArg Prod.fst h) (by simp)
      · intro h
        omega
    · constructor
      · intro h
        exact absurd (congrArg Prod.fst h) (by simp)
      · intro h
        exact absurd h0 h.1
  · rw [if_neg h0]
    by_cases h2 : oddDegreeCount g = 2
    · rw [if_pos h2]
      refine ⟨?_, by simp [h2], ?_⟩
      · constructor
        · intro h
          exact absurd (congrArg Prod.fst h) (by simp)
        · intro h
          exact absurd h h0
      · constructor
        · intro h
          exact absurd (congrArg Prod.snd h) (by simp)
        · intro h
          exact absurd h2 h.2
    · rw [if_neg h2]
      refine ⟨?_, ?_, by simp [h0, h2]⟩
      · constructor
        · intro h
          exact absurd (congrArg Prod.fst h) (by simp)
        · intro h
          exact absurd h h0
      · constructor
        · intro h
          exact absurd (congrArg Prod.snd h) (by simp)
        · intro h
          exact absurd h h2

/-- A triangle: three mutually connected vertices, each of degree 2. -/
def gTriangle : Graph String ℕ :=
  (((Graph.empty false).add_edge "A" "B" 1).add_edge "B" "C" 1).add_edge "C" "A" 1

/-- The path graph A - B - C, degrees 1, 2, 1. -/
def gPathABC : Graph String ℕ :=
  ((Graph.empty false).add_edge "A" "B" 1).add_edge "B" "C" 1

/-- A star: centre S of degree 3, three leaves of degree 1. -/
def gStar : Graph String ℕ :=
  (((Graph.empty false).add_edge "S" "A" 1).add_edge "S" "B" 1).add_edge "S" "C" 1

end EulerianCount

section LoadMachinery

/-- The data a well-formed import line carries: `parts[0]`, `parts[1]` and
`int(parts[2])`, tokens beyond the third ignored. -/
def parsedLine (l : String) : Option (String × String × ℤ) :=
  match lineTokens l with
  | s :: t :: wstr :: _ => (parseInt wstr).map (fun w => (s, t, w))
  | _ => none

/-- Which exception a bad line raises: fewer than three tokens is an
`IndexError`, otherwise (a non-integer third token) a `ValueError`. -/
def lineErr (l : String) : LoadError :=
  match lineTokens l with
  | _ :: _ :: _ :: _ => LoadError.valueError
  | _ => LoadError.indexError

/-- The cumulative effect of the well-formed lines of a file. -/
def applyGood (g : Graph String ℤ) (lines : List String) : Graph String ℤ :=
  lines.foldl (fun h l =>
    match parsedLine l with
    | some (s, t, w) => h.add_edge s t w
    | none => h) g

theorem load_cons (g : Graph String ℤ) (l : String) (rest : List String) :
    g.load_from_file (l :: rest) =
      match parsedLine l with
      | some (s, t, w) => (g.add_edge s t w).load_from_file rest
      | none => (g, some (lineErr l)) := by
  show (match lineTokens l with
    | s :: t :: wstr :: _ =>
      match parseInt wstr with
      | some w => (g.add_edge s t w).load_from_file rest
      | none => (g, some LoadError.valueError)
    | _ => (g, some LoadError.indexError)) = _
  unfold parsedLine lineErr
  cases htok : lineTokens l with
  | nil => rfl
  | cons s tl =>
    cases tl with
    | nil => rfl
    | cons t tl2 =>
      cases tl2 with
      | nil => rfl
      | cons wstr tl3 =>
        cases hw : parseInt wstr <;> simp [hw]

theorem load_all_good (lines : List String) :
    ∀ g : Graph String ℤ, (∀ l ∈ lines, (parsedLine l).isSome) →
      g.load_from_file lines = (applyGood g lines, none) := by
  induction lines with
  | nil => intro g _; rfl
  | cons l rest ih =>
    intro g hgood
    rw [load_cons]
    obtain ⟨p, hp⟩ := Option.isSome_iff_exists.mp (hgood l (List.mem_cons_self _ _))
    obtain ⟨s, t, w⟩ := p
    rw [hp]
    show (g.add_edge s t w).load_from_file rest = (applyGood g (l :: rest), none)
    rw [ih _ (fun x hx => hgood x (List.mem_cons_of_mem _ hx))]
    show (applyGood (g.add_edge s t w) rest, none) = _
    unfold applyGood
    rw [List.foldl_cons, hp]

theorem load_first_bad (pre : List String) :
    ∀ (g : Graph String ℤ) (bad : String) (post : List String),
      (∀ l ∈ pre, (parsedLine l).isSome) → parsedLine bad = none →
      g.load_from_file (pre ++ bad :: post) = (applyGood g pre, some (lineErr bad)) := by
  induction pre with
  | nil =>
    intro g bad post _ hbad
    rw [List.nil_append, load_cons, hbad]
    rfl
  | cons l pre ih =>
    intro g bad post hgood hbad
    rw [List.cons_append, load_cons]
    obtain ⟨p, hp⟩ := Option.isSome_iff_exists.mp (hgood l (List.mem_cons_self _ _))
    obtain ⟨s, t, w⟩ := p
    rw [hp]
    show (g.add_edge s t w).load_from_file (pre ++ bad :: post) = _
    rw [ih _ bad post (fun x hx => hgood x (List.mem_cons_of_mem _ hx)) hbad]
    unfold applyGood
    rw [List.foldl_cons, hp]

end LoadMachinery

section QueryFrame

variable {V : Type} [DecidableEq V] [LinearOrder V]

/-- The read-only operations of the `Graph` class. -/
inductive QueryOp (V : Type) : Type
  | orderQ
  | sizeQ
  | adjacentVerticesQ (v : V)
  | degreeQ (v : V)
  | areAdjacentQ (a b : V)
  | isEulerianQ
  | dijkstraQ (s : V)
  | shortestPathQ (s e : V)

/-- The possible results of the read-only operations. -/
inductive QOutput (V : Type) : Type
  | num (n : ℕ)
  | verts (l : List V)
  | deg (d : DegreeResult)
  | boolean (b : Bool)
  | eulerian (p : Bool × Bool)
  | dijTables (r : Option (List (V × Option ℕ) × List (V × Option V)))
  | spRes (r : Option (SPResult V))

/-- Each query method of the Python class, written as an explicit state
transformer `Graph → Graph × result`.  The method bodies (translated from
the source) read `self` but contain no assignment to `self.adjacency_list`,
`self.edge_weights` or `self.directed`, so each returns its receiver
unchanged; in particular `dijkstra` builds its `distances` and
`predecessors` tables as fresh local structures. -/
def runQuery (g : Graph V ℕ) : QueryOp V → Graph V ℕ × QOutput V
  | QueryOp.orderQ => (g, QOutput.num g.get_order)
  | QueryOp.sizeQ => (g, QOutput.num g.get_size)
  | QueryOp.adjacentVerticesQ v => (g, QOutput.verts (g.get_adjacent_vertices v))
  | QueryOp.degreeQ v => (g, QOutput.deg (g.get_degree v))
  | QueryOp.areAdjacentQ a b => (g, QOutput.boolean (g.are_adjacent a b))
  | QueryOp.isEulerianQ => (g, QOutput.eulerian g.is_eulerian)
  | QueryOp.dijkstraQ s => (g, QOutput.dijTables (g.dijkstra s))
  | QueryOp.shortestPathQ s e => (g, QOutput.spRes (g.shortest_path s e))

end QueryFrame

section ClaimSupport

/-- A two-vertex graph with no edges: `addVertex(A)`, `addVertex(B)` on an
undirected empty graph.  `B` is unreachable from `A`. -/
def gDisc : Graph String ℕ := ((Graph.empty false).add_vertex "A").add_vertex "B"

theorem gDisc_adj (u : String) : gDisc.get_adjacent_vertices u = [] := by
  have h : gDisc.adjacency_list = [("A", []), ("B", [])] := rfl
  unfold Graph.get_adjacent_vertices
  rw [h]
  simp only [lookupA]
  rcases eq_or_ne ("A" : String) u with h1 | h1 <;>
    rcases eq_or_ne ("B" : String) u with h2 | h2 <;>
    simp [h1, h2]

theorem gDisc_walk_eq : ∀ {v : String} {c : ℕ}, WalkTo gDisc "A" v c → v = "A" := by
  intro v c h
  induction h with
  | nil => rfl
  | cons hw hadj ih =>
    rw [gDisc_adj] at hadj
    simp at hadj

theorem gDisc_no_walk : ∀ c, ¬ WalkTo gDisc "A" "B" c := by
  intro c h
  exact absurd (gDisc_walk_eq h) (by decide)

end ClaimSupport

section ClaimTheorems

/-- C1: for every graph (non-negative weights are forced by the `ℕ`
instantiation, a missing weight entry counts as `1` through `edgeWeight`)
and every start vertex present in the adjacency mapping, `dijkstra(start)`
returns a table giving, for each vertex, the minimum total weight of a
walk - equivalently, of a simple path - from `start`, with the infinite
sentinel (`none`) exactly when the vertex is unreachable; on the undirected
graph built by `addEdge(A,B,1)`, `addEdge(B,C,2)`, `addEdge(A,C,5)`,
`shortestPath(A,C)` returns cost `3` and path `[A,B,C]`. -/
theorem claim_C1_dijkstra_min_path :
    (∀ (V : Type) [DecidableEq V] [LinearOrder V] (g : Graph V ℕ) (s : V),
      g.WellFormed → s ∈ g.vertices →
      ∃ dist pred, g.dijkstra s = some (dist, pred) ∧
        ∀ v ∈ g.vertices, ∃ dv, lookupA dist v = some dv ∧
          IsMinDist g s v dv ∧ IsMinPathDist g s v dv) ∧
    gEx.shortest_path "A" "C" = some (SPResult.found 3 ["A", "B", "C"]) := by
  refine ⟨?_, gEx_shortest_path_eval⟩
  intro V _ _ g s hwf hs
  obtain ⟨dist, pred, heq, _, _, _, hmin⟩ := dijkstra_correct hwf hs
  refine ⟨dist, pred, heq, ?_⟩
  intro v hv
  obtain ⟨dv, hdv, hismin⟩ := hmin v hv
  exact ⟨dv, hdv, hismin, isMinPathDist_of_isMinDist hismin⟩

/-- C2 (amended): for every well-formed graph and vertex `start` present in
it, `shortestPath(start, start)` returns cost `0` and the *empty* path, not
the claimed single-element path `[start]`: the backward walk never runs and
the trailing `if path:` guard skips the final insert of `start`. -/
theorem claim_C2_self_path (V : Type) [DecidableEq V] [LinearOrder V]
    (g : Graph V ℕ) (s : V) (hwf : g.WellFormed) (hs : s ∈ g.vertices) :
    g.shortest_path s s = some (SPResult.found 0 []) :=
  shortest_path_self hwf hs

/-- C2 witness: the amended behaviour on the concrete triangle graph. -/
theorem claim_C2_self_path_witness :
    gEx.WellFormed ∧ "A" ∈ gEx.vertices ∧
    gEx.shortest_path "A" "A" = some (SPResult.found 0 []) :=
  ⟨by decide, by decide, claim_C2_self_path String gEx "A" (by decide) (by decide)⟩

/-- C2 counterexample: on the triangle graph, `shortestPath(A, A)` returns
cost `0` with the empty path, not the single-element path `[A]` the claim
states. -/
theorem claim_C2_counterexample :
    gEx.shortest_path "A" "A" = some (SPResult.found 0 []) ∧
    gEx.shortest_path "A" "A" ≠ some (SPResult.found 0 ["A"]) := by
  refine ⟨gEx_shortest_path_self_eval, ?_⟩
  rw [gEx_shortest_path_self_eval]
  decide

/-- C3: for every well-formed graph and vertices `start`, `end` both present
in it, if no walk reaches `end` from `start` (so `distance[end]` remains the
infinite sentinel), `shortestPath(start, end)` returns the no-path result
(`SPResult.noPath`, modelling the pair of the `"No path exists"` failure
indicator and the empty path) instead of a numeric cost. -/
theorem claim_C3_no_path (V : Type) [DecidableEq V] [LinearOrder V]
    (g : Graph V ℕ) (s e : V) (hwf : g.WellFormed) (hs : s ∈ g.vertices)
    (he : e ∈ g.vertices) (hun : ∀ c, ¬ WalkTo g s e c) :
    g.shortest_path s e = some SPResult.noPath :=
  shortest_path_unreachable hwf hs he hun

/-- C3 witness: two isolated vertices, `B` unreachable from `A`. -/
theorem claim_C3_no_path_witness :
    gDisc.WellFormed ∧ "A" ∈ gDisc.vertices ∧ "B" ∈ gDisc.vertices ∧
    gDisc.shortest_path "A" "B" = some SPResult.noPath :=
  ⟨by decide, by decide, by decide,
    claim_C3_no_path String gDisc "A" "B" (by decide) (by decide) (by decide)
      gDisc_no_walk⟩

/-- C4: `isEulerian` counts, over all adjacency keys, the vertices whose
neighbour-list length is odd (multiplicities included, directedness and
connectivity ignored) and returns `(true, false)` when that count is `0`,
`(false, true)` when it is exactly `2`, and `(false, false)` otherwise; a
triangle reports Eulerian, the path `A-B-C` reports semi-Eulerian, and a
star with a degree-3 centre and three leaves reports neither. -/
theorem claim_C4_eulerian_cases :
    (∀ (V W : Type) (g : Graph V W),
      (g.is_eulerian = (true, false) ↔ oddDegreeCount g = 0) ∧
      (g.is_eulerian = (false, true) ↔ oddDegreeCount g = 2) ∧
      (g.is_eulerian = (false, false) ↔ (oddDegreeCount g ≠ 0 ∧ oddDegreeCount g ≠ 2))) ∧
    gTriangle.is_eulerian = (true, false) ∧
    gPathABC.is_eulerian = (false, true) ∧
    gStar.is_eulerian = (false, false) :=
  ⟨fun V W g => is_eulerian_cases g, by decide, by decide, by decide⟩

/-- C5: on a graph created with `directed=false`, `addEdge(u,v,w)` makes
`areAdjacent(u,v)` and `areAdjacent(v,u)` both true and records the weight
`w` under both ordered pairs; after any further sequence of
`addVertex`/`addEdge` operations both adjacency directions still hold and
both weight entries still exist. -/
theorem claim_C5_undirected_symmetry (V W : Type) [DecidableEq V]
    (g : Graph V W) (u v : V) (w : W) (ops : List (GOp V W))
    (hd : g.directed = false) :
    (g.add_edge u v w).are_adjacent u v = true ∧
    (g.add_edge u v w).are_adjacent v u = true ∧
    lookupA (g.add_edge u v w).edge_weights (u, v) = some w ∧
    lookupA (g.add_edge u v w).edge_weights (v, u) = some w ∧
    (applyOps (g.add_edge u v w) ops).are_adjacent u v = true ∧
    (applyOps (g.add_edge u v w) ops).are_adjacent v u = true ∧
    (lookupA (applyOps (g.add_edge u v w) ops).edge_weights (u, v)).isSome = true ∧
    (lookupA (applyOps (g.add_edge u v w) ops).edge_weights (v, u)).isSome = true := by
  obtain ⟨h1, h2, h3, h4⟩ := add_edge_undirected_sym g u v w hd
  refine ⟨h1, h2, h3, h4, ?_, ?_, ?_, ?_⟩
  · rw [are_adjacent_true_iff] at h1 ⊢
    exact adj_mono_applyOps _ ops u v h1
  · rw [are_adjacent_true_iff] at h2 ⊢
    exact adj_mono_applyOps _ ops v u h2
  · exact wkey_mono_applyOps _ ops (u, v) (by rw [h3]; rfl)
  · exact wkey_mono_applyOps _ ops (v, u) (by rw [h4]; rfl)

/-- C5 witness: `addEdge(A,B,7)` on the empty undirected graph, followed by
a later `addEdge(B,C,2)`. -/
theorem claim_C5_undirected_symmetry_witness :
    (Graph.empty false : Graph String ℕ).directed = false ∧
    (((Graph.empty false : Graph String ℕ).add_edge "A" "B" 7).are_adjacent "A" "B" = true ∧
     ((Graph.empty false : Graph String ℕ).add_edge "A" "B" 7).are_adjacent "B" "A" = true ∧
     lookupA ((Graph.empty false : Graph String ℕ).add_edge "A" "B" 7).edge_weights
       ("A", "B") = some 7 ∧
     lookupA ((Graph.empty false : Graph String ℕ).add_edge "A" "B" 7).edge_weights
       ("B", "A") = some 7 ∧
     (applyOps ((Graph.empty false : Graph String ℕ).add_edge "A" "B" 7)
       [GOp.addE "B" "C" 2]).are_adjacent "A" "B" = true ∧
     (applyOps ((Graph.empty false : Graph String ℕ).add_edge "A" "B" 7)
       [GOp.addE "B" "C" 2]).are_adjacent "B" "A" = true ∧
     (lookupA (applyOps ((Graph.empty false : Graph String ℕ).add_edge "A" "B" 7)
       [GOp.addE "B" "C" 2]).edge_weights ("A", "B")).isSome = true ∧
     (lookupA (applyOps ((Graph.empty false : Graph String ℕ).add_edge "A" "B" 7)
       [GOp.addE "B" "C" 2]).edge_weights ("B", "A")).isSome = true) :=
  ⟨rfl, claim_C5_undirected_symmetry String ℕ (Graph.empty false) "A" "B" 7
    [GOp.addE "B" "C" 2] rfl⟩

/-- C6: for every undirected graph, `size()` equals half the sum of the
neighbour-list lengths; for every directed graph it equals the raw sum; and
an undirected graph built from `k` edges has degree sum `2k` and
`size() = k`. -/
theorem claim_C6_size (V W : Type) [DecidableEq V] (g : Graph V W)
    (edges : List (V × V × W)) (hd : g.directed = false) :
    g.get_size = sumDeg g / 2 ∧
    (∀ g2 : Graph V W, g2.directed = true → g2.get_size = sumDeg g2) ∧
    sumDeg (edges.foldl (fun h e => h.add_edge e.1 e.2.1 e.2.2)
      (Graph.empty false : Graph V W)) = 2 * edges.length ∧
    (edges.foldl (fun h e => h.add_edge e.1 e.2.1 e.2.2)
      (Graph.empty false : Graph V W)).get_size = edges.length := by
  have hsum : sumDeg (edges.foldl (fun h e => h.add_edge e.1 e.2.1 e.2.2)
      (Graph.empty false : Graph V W)) = 2 * edges.length := by
    rw [sumDeg_fold_edges edges (Graph.empty false) rfl]
    have h0 : sumDeg (Graph.empty false : Graph V W) = 0 := rfl
    rw [h0, Nat.zero_add]
  refine ⟨get_size_undirected g hd, fun g2 hg2 => get_size_directed g2 hg2, hsum, ?_⟩
  have hdf : (edges.foldl (fun h e => h.add_edge e.1 e.2.1 e.2.2)
      (Graph.empty false : Graph V W)).directed = false :=
    (fold_edges_directed edges (Graph.empty false)).trans rfl
  rw [get_size_undirected _ hdf, hsum]
  omega

/-- C6 witness: two distinct edges into the empty undirected graph. -/
theorem claim_C6_size_witness :
    (Graph.empty false : Graph String ℕ).directed = false ∧
    ((Graph.empty false : Graph String ℕ).get_size =
       sumDeg (Graph.empty false : Graph String ℕ) / 2 ∧
     (∀ g2 : Graph String ℕ, g2.directed = true → g2.get_size = sumDeg g2) ∧
     sumDeg ([("A", "B", 1), ("B", "C", 2)].foldl
       (fun h e => h.add_edge e.1 e.2.1 e.2.2) (Graph.empty false : Graph String ℕ)) =
       2 * [("A", "B", 1), ("B", "C", 2)].length ∧
     ([("A", "B", 1), ("B", "C", 2)].foldl
       (fun h e => h.add_edge e.1 e.2.1 e.2.2)
       (Graph.empty false : Graph String ℕ)).get_size =
       [("A", "B", 1), ("B", "C", 2)].length) :=
  ⟨rfl, claim_C6_size String ℕ (Graph.empty false) [("A", "B", 1), ("B", "C", 2)] rfl⟩

/-- C7: after any sequence of `addVertex`/`addEdge` calls on an empty graph
(directed or not), `order()` equals the number of distinct identifiers ever
passed to either call, as vertex, source or target. -/
theorem claim_C7_order_idents (V W : Type) [DecidableEq V] (d : Bool)
    (ops : List (GOp V W)) :
    (applyOps (Graph.empty d : Graph V W) ops).get_order =
      (ops.flatMap identsOf).toFinset.card :=
  get_order_eq_card_idents d ops

/-- C8 (amended): `loadFromFile` adds one edge per line whose token list has
a well-formed `source target weight` prefix (`parsedLine`), and on the first
line without one - fewer than three tokens (`IndexError`) or a non-integer
third token (`ValueError`), per `lineErr` - it stops with that error, the
edges of all prior lines remaining applied; a file of well-formed lines
loads completely with no error.  Lines with *more* than three tokens are
accepted, the extra tokens ignored, so "wrong field count" is only a
failure when the count is too small. -/
theorem claim_C8_load (g : Graph String ℤ) (pre : List String) (bad : String)
    (post good : List String)
    (hgood : ∀ l ∈ pre, (parsedLine l).isSome) (hbad : parsedLine bad = none)
    (hall : ∀ l ∈ good, (parsedLine l).isSome) :
    g.load_from_file (pre ++ bad :: post) = (applyGood g pre, some (lineErr bad)) ∧
    g.load_from_file good = (applyGood g good, none) :=
  ⟨load_first_bad pre g bad post hgood hbad, load_all_good good g hall⟩

/-- C8 witness: a good line, then a bad-weight line aborting the rest; and a
fully well-formed file. -/
theorem claim_C8_load_witness :
    (∀ l ∈ ["A B 2"], (parsedLine l).isSome) ∧ parsedLine "A B x" = none ∧
    (∀ l ∈ ["C D 3"], (parsedLine l).isSome) ∧
    ((Graph.empty false : Graph String ℤ).load_from_file
        (["A B 2"] ++ "A B x" :: ["E F 9"]) =
      (applyGood (Graph.empty false) ["A B 2"], some (lineErr "A B x")) ∧
     (Graph.empty false : Graph String ℤ).load_from_file ["C D 3"] =
      (applyGood (Graph.empty false) ["C D 3"], none)) :=
  ⟨by decide, by decide, by decide,
   claim_C8_load (Graph.empty false) ["A B 2"] "A B x" ["E F 9"] ["C D 3"]
     (by decide) (by decide) (by decide)⟩

/-- C8 counterexample: a line of *four* tokens does not have the "wrong
field count" the claim asserts to fail: the loader indexes `parts[0]`,
`parts[1]`, `parts[2]`, ignores the fourth token, adds the edge and reports
no error. -/
theorem claim_C8_counterexample :
    lineTokens "A B 1 X" = ["A", "B", "1", "X"] ∧
    (Graph.empty false : Graph String ℤ).load_from_file ["A B 1 X"] =
      ((Graph.empty false : Graph String ℤ).add_edge "A" "B" 1, none) :=
  ⟨rfl, rfl⟩

/-- C9: calling `dijkstra` - and hence `shortestPath` - with a start vertex
absent from the adjacency mapping fails with the `KeyError`-equivalent
lookup failure (`none`, the `KeyError` of `self.adjacency_list[current_vertex]`
on the very first pop) rather than returning a result; `shortestPath` with
an absent end vertex fails the same way (the `KeyError` of `distances[end]`). -/
theorem claim_C9_unknown_vertex (V : Type) [DecidableEq V] [LinearOrder V]
    (g : Graph V ℕ) (s e : V) :
    (s ∉ g.vertices → g.dijkstra s = none ∧ g.shortest_path s e = none) ∧
    (g.WellFormed → s ∈ g.vertices → e ∉ g.vertices →
      g.shortest_path s e = none) := by
  constructor
  · intro hs
    exact ⟨dijkstra_unknown_start hs, shortest_path_unknown_start hs⟩
  · intro hwf hs he
    exact shortest_path_unknown_end hwf hs he

/-- C9 witness: the vertex `Z` is unknown to the triangle graph. -/
theorem claim_C9_unknown_vertex_witness :
    "Z" ∉ gEx.vertices ∧ gEx.dijkstra "Z" = none ∧
    gEx.shortest_path "Z" "A" = none ∧ gEx.shortest_path "A" "Z" = none :=
  ⟨by decide,
   ((claim_C9_unknown_vertex String gEx "Z" "A").1 (by decide)).1,
   ((claim_C9_unknown_vertex String gEx "Z" "A").1 (by decide)).2,
   (claim_C9_unknown_vertex String gEx "A" "Z").2 (by decide) (by decide) (by decide)⟩

/-- C10: every query operation - `order`, `size`, `adjacentVertices`,
`degree`, `areAdjacent`, `isEulerian`, `dijkstra` and `shortestPath` -
returns the graph state unchanged: each method body, translated as the
state transformer `runQuery`, reads the adjacency and weight mappings but
assigns to neither, `dijkstra` accumulating its distance and predecessor
tables in structures separate from the graph. -/
theorem claim_C10_queries_pure (V : Type) [DecidableEq V] [LinearOrder V]
    (g : Graph V ℕ) (q : QueryOp V) :
    (runQuery g q).1 = g := by
  cases q <;> rfl

end ClaimTheorems
